import Mathlib

/-!
# Verification of the S3 migration source driver (`awss3v2`, file `s3.go`)

The driver lists the objects under a prefix of a bucket, parses every leaf
file name as a migration, stores the migrations in a `source.Migrations`
catalog and serves `First/Prev/Next/ReadUp/ReadDown` from that catalog.

Conventions of the embedding:

* a Go `string` is a `List Char` (`GoString`); every byte the code inspects
  (`/`, `.`, `_`, digits, line feed) is ASCII, so working on characters and
  working on UTF-8 bytes agree;
* a Go `uint` is a natural number; `strconv.ParseUint(_, 10, 64)` bounds the
  versions that can be parsed by `2^64`;
* Go's multiple return values are tuples, a `nil` pointer or `nil` error is
  `none`;
* the object store client (`S3er`) is a pair of functions; operations that may
  call `GetObject` return the list of calls they made next to their result.

`s3.go` is a thin layer over the Go standard library (`strings.Trim`,
`path.Split`, `path.Join`, `net/url`) and over the package
`github.com/golang-migrate/migrate/v4/source` (`DefaultParse`, `Migrations`).
Those functions are embedded here from their library sources; `url.Parse` is a
parameter of `parseURI`.
-/

namespace AwsS3

/-- A Go string, as its sequence of characters. -/
abbrev GoString := List Char

/-! ## Go standard library -/

/-- Go `error` values met by the driver: `os.ErrNotExist`, and errors made by
`errors.New` / `fmt.Errorf`, identified by their text. -/
inductive GoError where
  | ErrNotExist
  | New (text : GoString)
deriving DecidableEq, Repr

/-- The method `Error()` of an error value. -/
def GoError.Error : GoError → GoString
  | .ErrNotExist => "file does not exist".toList
  | .New text => text

/-- Go `strings.TrimLeft(s, cutset)`: drop the leading characters that occur
in `cutset`. -/
def stringsTrimLeft (s cutset : GoString) : GoString :=
  s.dropWhile (fun c => cutset.contains c)

/-- Go `strings.TrimRight(s, cutset)`: drop the trailing characters that occur
in `cutset`. -/
def stringsTrimRight (s cutset : GoString) : GoString :=
  (s.reverse.dropWhile (fun c => cutset.contains c)).reverse

/-- Go `strings.Trim(s, cutset)`: `s` with all leading and trailing characters
contained in `cutset` removed. -/
def stringsTrim (s cutset : GoString) : GoString :=
  stringsTrimLeft (stringsTrimRight s cutset) cutset

/-- Go `strings.HasPrefix`. -/
def stringsHasPrefix (s pre : GoString) : Bool :=
  pre.isPrefixOf s

/-- Go `strings.Contains`: `substr` occurs somewhere in `s`. -/
def stringsContains : GoString → GoString → Bool
  | [], substr => substr.isPrefixOf []
  | c :: cs, substr => substr.isPrefixOf (c :: cs) || stringsContains cs substr

/-- Go `strings.Replace(s, old, "", 1)`: remove the first occurrence of `old`
from `s` (the empty `old` matches at the start, and removing it changes
nothing). -/
def stringsRemoveFirst : GoString → GoString → GoString
  | [], _ => []
  | c :: cs, old =>
    if old.isPrefixOf (c :: cs) then (c :: cs).drop old.length
    else c :: stringsRemoveFirst cs old

/-- Go `path.Split`: split right after the final slash; without a slash the
directory is empty and the file is the whole path. -/
def pathSplit (p : GoString) : GoString × GoString :=
  ((p.reverse.dropWhile (fun c => c != '/')).reverse,
   (p.reverse.takeWhile (fun c => c != '/')).reverse)

/-- The elements of a path: the pieces between slashes (`n` slashes give
`n + 1` pieces, some possibly empty). -/
def pathElements : GoString → List GoString
  | [] => [[]]
  | c :: cs =>
    if c = '/' then [] :: pathElements cs
    else
      match pathElements cs with
      | [] => [[c]]
      | e :: es => (c :: e) :: es

/-- One step of the loop of Go `path.Clean` on the buffer `out` (the elements
written so far, last one first) for the next element `e` of the path: an empty
element and `.` are dropped; `..` removes the last written element when there
is one that is not itself a kept `..`, is dropped at the root, and is kept in
front of a path that is not rooted; any other element is written. -/
def cleanStep (rooted : Bool) (out : List GoString) (e : GoString) : List GoString :=
  if e = [] then out
  else if e = ['.'] then out
  else if e = ['.', '.'] then
    match out with
    | [] => if rooted then [] else [e]
    | top :: below => if top = ['.', '.'] then e :: top :: below else below
  else e :: out

/-- Go `path.Clean`: the shortest path equivalent to `p` by purely lexical
processing; the empty result is written `.`. -/
def pathClean (p : GoString) : GoString :=
  if p = [] then ['.']
  else
    let rooted := p.head? = some '/'
    let out := (pathElements p).foldl (cleanStep rooted) []
    let body := List.intercalate ['/'] out.reverse
    let res := if rooted then '/' :: body else body
    if res = [] then ['.'] else res

/-- Go `path.Join(a, b)`: the non-empty arguments joined by a slash, then
cleaned; the empty string when both are empty. -/
def pathJoin (a b : GoString) : GoString :=
  if a = [] ∧ b = [] then []
  else if a = [] then pathClean b
  else if b = [] then pathClean a
  else pathClean (a ++ '/' :: b)

/-- Go `sort.Search(n, f)`, the loop: binary search on `[i, j)`; `fuel` bounds
the number of iterations. -/
def sortSearchLoop (f : Nat → Bool) : Nat → Nat → Nat → Nat
  | 0, i, _ => i
  | fuel + 1, i, j =>
    if i < j then
      let h := (i + j) / 2
      if !f h then sortSearchLoop f fuel (h + 1) j
      else sortSearchLoop f fuel i h
    else i

/-- Go `sort.Search(n, f)`: the interval `[0, n)` halves at every iteration, so
`n` iterations are more than enough. -/
def sortSearch (n : Nat) (f : Nat → Bool) : Nat :=
  sortSearchLoop f n 0 n

/-! ## Package `github.com/golang-migrate/migrate/v4/source` -/

/-- Type `source.Direction`: the two values the parser produces, `"up"` and
`"down"`. -/
inductive Direction where
  | Up
  | Down
deriving DecidableEq, Repr

/-- Type `source.Migration`. -/
structure Migration where
  Version : Nat
  Identifier : GoString
  Direction : Direction
  Raw : GoString
deriving DecidableEq, Repr

/-- Go `strconv.ParseUint(s, 10, 64)` on a string of decimal digits: the value,
or an error (`none`) when it does not fit 64 bits. -/
def parseUint64 (digits : GoString) : Option Nat :=
  let n := digits.foldl (fun acc c => acc * 10 + (c.toNat - '0'.toNat)) 0
  if n < 2 ^ 64 then some n else none

/-- The tail `(.*)\.(down|up)\.(.*)$` of `source.Regex` on a text without line
feed: the first group is greedy, so the text is cut at the last place where
`.down.` or `.up.` starts. Returns the groups (identifier, direction,
extension). -/
def matchDirection : GoString → Option (GoString × Direction × GoString)
  | [] => none
  | c :: cs =>
    match matchDirection cs with
    | some (ident, d, ext) => some (c :: ident, d, ext)
    | none =>
      if ".down.".toList.isPrefixOf (c :: cs) then some ([], Direction.Down, (c :: cs).drop 6)
      else if ".up.".toList.isPrefixOf (c :: cs) then some ([], Direction.Up, (c :: cs).drop 4)
      else none

/-- The submatches of `source.Regex`, `^([0-9]+)_(.*)\.(down|up)\.(.*)$`, on
`raw`: (version digits, identifier, direction, extension). The digits are the
longest run of leading digits, which must be non-empty and followed by `_`; the
dot of the regular expression does not match a line feed. -/
def regexSubmatch (raw : GoString) : Option (GoString × GoString × Direction × GoString) :=
  let digits := raw.takeWhile Char.isDigit
  match raw.dropWhile Char.isDigit with
  | '_' :: rest =>
    if digits = [] ∨ '\n' ∈ rest then none
    else
      match matchDirection rest with
      | some (ident, d, ext) => some (digits, ident, d, ext)
      | none => none
  | _ => none

/-- Function `source.DefaultParse` (`source.Parse`): the migration described
by a file name `<version>_<identifier>.<up|down>.<extension>`, `none` for
the error results (no match, or a version that does not fit 64 bits). -/
def DefaultParse (raw : GoString) : Option Migration :=
  match regexSubmatch raw with
  | some (digits, ident, d, _) =>
    match parseUint64 digits with
    | some v => some { Version := v, Identifier := ident, Direction := d, Raw := raw }
    | none => none
  | none => none

/-- Go `map[Direction]*Migration`, the value stored for one version. -/
structure Halves where
  up : Option Migration
  down : Option Migration
deriving DecidableEq, Repr

/-- Lookup in a `map[Direction]*Migration`. -/
def Halves.get (h : Halves) : Direction → Option Migration
  | .Up => h.up
  | .Down => h.down

/-- Assignment in a `map[Direction]*Migration`. -/
def Halves.set (h : Halves) (d : Direction) (m : Migration) : Halves :=
  match d with
  | .Up => { h with up := some m }
  | .Down => { h with down := some m }

/-- Go `map[uint]map[Direction]*Migration`, as the list of its entries (one per
key, in an order that carries no meaning). -/
abbrev VersionMap := List (Nat × Halves)

/-- Lookup `m[v]`. -/
def VersionMap.get (m : VersionMap) (v : Nat) : Option Halves :=
  match m with
  | [] => none
  | (k, h) :: rest => if k = v then some h else VersionMap.get rest v

/-- Assignment `m[v] = h`. -/
def VersionMap.set (m : VersionMap) (v : Nat) (h : Halves) : VersionMap :=
  match m with
  | [] => [(v, h)]
  | (k, h') :: rest => if k = v then (k, h) :: rest else (k, h') :: VersionMap.set rest v h

/-- Type `source.Migrations`: the sorted index of versions and the map from
version and direction to migration. -/
structure Migrations where
  index : List Nat
  migrations : VersionMap
deriving DecidableEq, Repr

/-- Function `source.NewMigrations`. -/
def NewMigrations : Migrations :=
  { index := [], migrations := [] }

/-- Method `Migrations.buildIndex`: the keys of the map, sorted ascending. -/
def Migrations.buildIndex (i : Migrations) : Migrations :=
  { i with index := (i.migrations.map Prod.fst).insertionSort (· ≤ ·) }

/-- Method `Migrations.Append` for a non-nil migration: creates the entry of
the version if it is missing, rejects (`false`) a migration whose version and
direction are already present, otherwise stores it and rebuilds the index. -/
def Migrations.Append (i : Migrations) (m : Migration) : Migrations × Bool :=
  let migs :=
    match i.migrations.get m.Version with
    | none => i.migrations.set m.Version { up := none, down := none }
    | some _ => i.migrations
  let inner := (migs.get m.Version).getD { up := none, down := none }
  match inner.get m.Direction with
  | some _ => ({ i with migrations := migs }, false)
  | none =>
    (Migrations.buildIndex { i with migrations := migs.set m.Version (inner.set m.Direction m) },
     true)

/-- Method `uintSlice.Search`: `sort.Search` for the first position whose
element is at least `x`. -/
def uintSliceSearch (s : List Nat) (x : Nat) : Nat :=
  sortSearch s.length (fun i => decide (s.getD i 0 ≥ x))

/-- Method `Migrations.findPos`: the position of `version` in the index, or
`-1`. -/
def Migrations.findPos (i : Migrations) (version : Nat) : Int :=
  if i.index.length > 0 then
    let ix := uintSliceSearch i.index version
    if ix < i.index.length ∧ i.index.getD ix 0 = version then (ix : Int) else -1
  else -1

/-- Method `Migrations.First`. -/
def Migrations.First (i : Migrations) : Nat × Bool :=
  match i.index with
  | [] => (0, false)
  | v :: _ => (v, true)

/-- Method `Migrations.Prev`. -/
def Migrations.Prev (i : Migrations) (version : Nat) : Nat × Bool :=
  let pos := i.findPos version
  if pos ≥ 1 ∧ (i.index.length : Int) > pos - 1 then (i.index.getD (pos - 1).toNat 0, true)
  else (0, false)

/-- Method `Migrations.Next`. -/
def Migrations.Next (i : Migrations) (version : Nat) : Nat × Bool :=
  let pos := i.findPos version
  if pos ≥ 0 ∧ (i.index.length : Int) > pos + 1 then (i.index.getD (pos + 1).toNat 0, true)
  else (0, false)

/-- Method `Migrations.Up`. -/
def Migrations.Up (i : Migrations) (version : Nat) : Option Migration :=
  match i.migrations.get version with
  | some inner => inner.get Direction.Up
  | none => none

/-- Method `Migrations.Down`. -/
def Migrations.Down (i : Migrations) (version : Nat) : Option Migration :=
  match i.migrations.get version with
  | some inner => inner.get Direction.Down
  | none => none

/-! ## The driver (`s3.go`) -/

/-- Type `Config`. -/
structure Config where
  Bucket : GoString
  Prefix : GoString
deriving DecidableEq, Repr

/-- The fields of Go `url.URL` that `parseURI` reads. -/
structure URL where
  Host : GoString
  Path : GoString
deriving DecidableEq, Repr

/-- The fields of `s3.ListObjectsV2Input` that the driver sets. -/
structure ListObjectsV2Input where
  Bucket : GoString
  Prefix : GoString
  Delimiter : GoString
deriving DecidableEq, Repr

/-- The fields of `s3.GetObjectInput` that the driver sets. -/
structure GetObjectInput where
  Bucket : GoString
  Key : GoString
deriving DecidableEq, Repr

/-- Interface `S3er`. `ListObjectsV2` yields the keys of `output.Contents`
(each read with `aws.ToString`, so a nil key is the empty string) or an error;
`GetObject` yields the body of the object or an error. -/
structure S3er where
  ListObjectsV2 : ListObjectsV2Input → Except GoError (List GoString)
  GetObject : GetObjectInput → Except GoError GoString

/-- Type `s3Driver`. -/
structure s3Driver where
  s3client : S3er
  cfg : Config
  migrations : Migrations

/-- Function `parseURI` (s3.go:83-98); `urlParse` stands for Go's `url.Parse`. -/
def parseURI (urlParse : GoString → Except GoError URL) (uri : GoString) :
    Option Config × Option GoError :=
  match urlParse uri with
  | .error err => (none, some err)
  | .ok u =>
    let pre := stringsTrim u.Path "/".toList
    let pre := if pre ≠ [] then pre ++ "/".toList else pre
    (some { Bucket := u.Host, Prefix := pre }, none)

/-- The loop of `loadMigrations` (s3.go:110-121) over `output.Contents`,
threading the catalog: an object whose leaf name does not parse is skipped, and
the first refused `Append` ends the loop with the error. -/
def loadLoop (cat : Migrations) : List GoString → Migrations × Option GoError
  | [] => (cat, none)
  | key :: rest =>
    let fileName := (pathSplit key).2
    match DefaultParse fileName with
    | none => loadLoop cat rest
    | some m =>
      match cat.Append m with
      | (cat', true) => loadLoop cat' rest
      | (cat', false) => (cat', some (GoError.New ("unable to parse file ".toList ++ key)))

/-- Method `s3Driver.loadMigrations` (s3.go:100-124): the driver after the
call, and the returned error. -/
def s3Driver.loadMigrations (s : s3Driver) : s3Driver × Option GoError :=
  match s.s3client.ListObjectsV2
      { Bucket := s.cfg.Bucket, Prefix := s.cfg.Prefix, Delimiter := "/".toList } with
  | .error err => (s, some err)
  | .ok contents =>
    let r := loadLoop s.migrations contents
    ({ s with migrations := r.1 }, r.2)

/-- Function `WithInstance` (s3.go:69-81). -/
def WithInstance (s3client : S3er) (cfg : Config) : Option s3Driver × Option GoError :=
  let driver : s3Driver := { cfg := cfg, s3client := s3client, migrations := NewMigrations }
  match driver.loadMigrations with
  | (_, some err) => (none, some err)
  | (driver', none) => (some driver', none)

/-- Method `s3Driver.First` (s3.go:130-137). -/
def s3Driver.First (s : s3Driver) : Nat × Option GoError :=
  match s.migrations.First with
  | (_, false) => (0, some GoError.ErrNotExist)
  | (v, true) => (v, none)

/-- Method `s3Driver.Prev` (s3.go:139-146). -/
def s3Driver.Prev (s : s3Driver) (version : Nat) : Nat × Option GoError :=
  match s.migrations.Prev version with
  | (_, false) => (0, some GoError.ErrNotExist)
  | (v, true) => (v, none)

/-- Method `s3Driver.Next` (s3.go:148-155). -/
def s3Driver.Next (s : s3Driver) (version : Nat) : Nat × Option GoError :=
  match s.migrations.Next version with
  | (_, false) => (0, some GoError.ErrNotExist)
  | (v, true) => (v, none)

/-- What `ReadUp`, `ReadDown` and `open` return: (body, identifier, error). -/
abbrev ReadResult := Option GoString × GoString × Option GoError

/-- Method `s3Driver.open` (s3.go:173-185): the result, and the `GetObject`
calls made. -/
def s3Driver.open (s : s3Driver) (m : Migration) : ReadResult × List GetObjectInput :=
  let key := pathJoin s.cfg.Prefix m.Raw
  let input : GetObjectInput := { Bucket := s.cfg.Bucket, Key := key }
  match s.s3client.GetObject input with
  | .error err => ((none, [], some err), [input])
  | .ok body => ((some body, m.Identifier, none), [input])

/-- Method `s3Driver.ReadUp` (s3.go:157-163): the result, and the `GetObject`
calls made. -/
def s3Driver.ReadUp (s : s3Driver) (version : Nat) : ReadResult × List GetObjectInput :=
  match s.migrations.Up version with
  | some m => s.open m
  | none => ((none, [], some GoError.ErrNotExist), [])

/-- Method `s3Driver.ReadDown` (s3.go:165-171): the result, and the `GetObject`
calls made. -/
def s3Driver.ReadDown (s : s3Driver) (version : Nat) : ReadResult × List GetObjectInput :=
  match s.migrations.Down version with
  | some m => s.open m
  | none => ((none, [], some GoError.ErrNotExist), [])

/-! ## The test double (`s3_test.go`) -/

/-- Type `fakeS3`; `objects` lists the entries of the Go map (name, content),
one per name, in the order the iteration visits them. -/
structure fakeS3 where
  bucket : GoString
  objects : List (GoString × GoString)

/-- Method `fakeS3.ListObjectsV2` (s3_test.go:98-116). -/
def fakeS3.ListObjectsV2 (s : fakeS3) (input : ListObjectsV2Input) :
    Except GoError (List GoString) :=
  if input.Bucket ≠ s.bucket then .error (GoError.New "bucket not found".toList)
  else
    .ok ((s.objects.map Prod.fst).filter (fun name =>
      stringsHasPrefix name input.Prefix &&
        (decide (input.Delimiter = []) ||
          !stringsContains (stringsRemoveFirst name input.Prefix) input.Delimiter)))

/-- Method `fakeS3.GetObject` (s3_test.go:118-128). -/
def fakeS3.GetObject (s : fakeS3) (input : GetObjectInput) : Except GoError GoString :=
  if input.Bucket ≠ s.bucket then .error (GoError.New "bucket not found".toList)
  else
    match s.objects.lookup input.Key with
    | some data => .ok data
    | none => .error (GoError.New "object not found".toList)

/-- A `fakeS3` used as the `S3er` of a driver. -/
def fakeS3.client (s : fakeS3) : S3er :=
  { ListObjectsV2 := s.ListObjectsV2, GetObject := s.GetObject }

/-- The store of `TestAWSS3Source` (s3_test.go:18-34), in source order. -/
def testStore : fakeS3 :=
  { bucket := "some-bucket".toList
    objects := [
      ("staging/migrations/1_foobar.up.sql".toList, "1 up".toList),
      ("staging/migrations/1_foobar.down.sql".toList, "1 down".toList),
      ("prod/migrations/1_foobar.up.sql".toList, "1 up".toList),
      ("prod/migrations/1_foobar.down.sql".toList, "1 down".toList),
      ("prod/migrations/3_foobar.up.sql".toList, "3 up".toList),
      ("prod/migrations/4_foobar.up.sql".toList, "4 up".toList),
      ("prod/migrations/4_foobar.down.sql".toList, "4 down".toList),
      ("prod/migrations/5_foobar.down.sql".toList, "5 down".toList),
      ("prod/migrations/7_foobar.up.sql".toList, "7 up".toList),
      ("prod/migrations/7_foobar.down.sql".toList, "7 down".toList),
      ("prod/migrations/not-a-migration.txt".toList, []),
      ("prod/migrations/0-random-stuff/whatever.txt".toList, [])] }

/-- The configuration of `TestAWSS3Source` (s3_test.go:35-38). -/
def testConfig : Config :=
  { Bucket := "some-bucket".toList, Prefix := "prod/migrations/".toList }


/-! ## Vocabulary of the statements -/

/-- The keys of a version map. -/
def VersionMap.keys (m : VersionMap) : List Nat :=
  m.map Prod.fst

/-- The migration stored for a version and a direction (`Up` and `Down` are
its two instances). -/
def Migrations.lookup (i : Migrations) (v : Nat) (d : Direction) : Option Migration :=
  match i.migrations.get v with
  | some inner => inner.get d
  | none => none

/-- The (version, direction) slot a migration occupies. -/
def Migration.slot (m : Migration) : Nat × AwsS3.Direction :=
  (m.Version, m.Direction)

/-- The catalog `i` holds exactly the migrations of the list `ms`: the keys of
the map are distinct and are the versions of `ms`, the index is the sorted list
of keys, and a slot holds `m` iff `m` is the member of `ms` with that slot. -/
structure Represents (i : Migrations) (ms : List Migration) : Prop where
  nodup_keys : (VersionMap.keys i.migrations).Nodup
  index_eq : i.index = (VersionMap.keys i.migrations).insertionSort (· ≤ ·)
  lookup_iff : ∀ v d m, i.lookup v d = some m ↔ m ∈ ms ∧ m.Version = v ∧ m.Direction = d
  mem_keys : ∀ v, v ∈ VersionMap.keys i.migrations ↔ ∃ m ∈ ms, m.Version = v

/-- The migration an object key stands for: its leaf name (`path.Split`) read by
`DefaultParse`. -/
def parseKey (key : GoString) : Option Migration :=
  DefaultParse (pathSplit key).2

/-- The (version, direction) slot an object key claims, if it parses. -/
def slotOf (key : GoString) : Option (Nat × Direction) :=
  (parseKey key).map Migration.slot

/-- The migrations of a listing, in listing order. -/
def parsedOf (keys : List GoString) : List Migration :=
  keys.filterMap parseKey

/-- The error `fmt.Errorf("unable to parse file %v", key)`. -/
def ambiguousError (key : GoString) : GoError :=
  GoError.New ("unable to parse file ".toList ++ key)

/-- The request `loadMigrations` sends for a configuration. -/
def listRequest (cfg : Config) : ListObjectsV2Input :=
  { Bucket := cfg.Bucket, Prefix := cfg.Prefix, Delimiter := "/".toList }

/-- A store holding the two files of the ambiguity example. -/
def ambiguousStore : fakeS3 :=
  { bucket := "b".toList
    objects := [("5_a.up.sql".toList, []), ("5_b.up.sql".toList, [])] }

/-- Two object keys whose leaf names parse to the same (version, direction). -/
def sameSlot (a b : GoString) : Prop :=
  ∃ m₁ m₂, DefaultParse (pathSplit a).2 = some m₁ ∧ DefaultParse (pathSplit b).2 = some m₂ ∧
    m₁.Version = m₂.Version ∧ m₁.Direction = m₂.Direction

/-- A listing in which no two entries claim the same (version, direction). -/
def Unambiguous (keys : List GoString) : Prop :=
  keys.Pairwise (fun a b => ¬ sameSlot a b)

/-- The version is present in the catalog of the driver: it has an up half, a
down half, or both. -/
def s3Driver.present (s : s3Driver) (v : Nat) : Prop :=
  (s.migrations.Up v).isSome = true ∨ (s.migrations.Down v).isSome = true

/-- The listing `fakeS3` returns for the test store under `prod/migrations/`. -/
def testListing : List GoString :=
  [ "prod/migrations/1_foobar.up.sql".toList,
    "prod/migrations/1_foobar.down.sql".toList,
    "prod/migrations/3_foobar.up.sql".toList,
    "prod/migrations/4_foobar.up.sql".toList,
    "prod/migrations/4_foobar.down.sql".toList,
    "prod/migrations/5_foobar.down.sql".toList,
    "prod/migrations/7_foobar.up.sql".toList,
    "prod/migrations/7_foobar.down.sql".toList,
    "prod/migrations/not-a-migration.txt".toList ]

/-- A client that hands the driver a given listing whatever the request
(it ignores the delimiter) and holds no object. -/
def listingClient (keys : List GoString) : S3er :=
  { ListObjectsV2 := fun _ => .ok keys
    GetObject := fun _ => .error (GoError.New "object not found".toList) }

/-- A fresh driver, as `WithInstance` makes it, over a client that hands over
the listing of `TestAWSS3Source`. -/
def forwardDriver : s3Driver :=
  { s3client := listingClient testListing, cfg := testConfig, migrations := NewMigrations }

/-- A fresh driver over a client that hands over the same listing reversed. -/
def reversedDriver : s3Driver :=
  { s3client := listingClient testListing.reverse, cfg := testConfig, migrations := NewMigrations }

/-- The prefix `parseURI` derives from a path. -/
def prefixOfPath (path : GoString) : GoString :=
  if stringsTrim path ['/'] = [] then [] else stringsTrim path ['/'] ++ ['/']

/-- The values of Go's `url.Parse` on the four addresses of `TestParseURI`
(s3_test.go:45-81). -/
def testUrlParse (uri : GoString) : Except GoError URL :=
  if uri = "s3://migration-bucket/production".toList then
    .ok { Host := "migration-bucket".toList, Path := "/production".toList }
  else if uri = "s3://migration-bucket".toList then
    .ok { Host := "migration-bucket".toList, Path := [] }
  else if uri = "s3://migration-bucket/production/".toList then
    .ok { Host := "migration-bucket".toList, Path := "/production/".toList }
  else if uri = "s3://migration-bucket/".toList then
    .ok { Host := "migration-bucket".toList, Path := "/".toList }
  else .error (GoError.New "not an address of TestParseURI".toList)

/-- A path element that `path.Clean` keeps as it is. -/
def cleanElement (e : GoString) : Bool :=
  decide (e ≠ [] ∧ e ≠ ['.'] ∧ e ≠ ['.', '.'])

/-- A store holding one migration under the prefix `a//b/`. -/
def doubleSlashStore : fakeS3 :=
  { bucket := "bucket".toList
    objects := [("a//b/1_x.up.sql".toList, "1 up".toList)] }

/-- The key lies under the prefix and still contains a slash once the prefix is
removed (the test `fakeS3.ListObjectsV2` applies for the delimiter `/`). -/
def nestedKey (pre key : GoString) : Bool :=
  stringsHasPrefix key pre && stringsContains (stringsRemoveFirst key pre) ['/']

/-- The store without the objects nested under the prefix. -/
def fakeS3.withoutNested (s : fakeS3) (pre : GoString) : fakeS3 :=
  { s with objects := s.objects.filter (fun o => !nestedKey pre o.1) }

/-- A store with one migration right under the prefix `p/` and one nested
below it, both with leaf names that parse. -/
def nestedStore : fakeS3 :=
  { bucket := "b".toList
    objects := [("p/1_a.up.sql".toList, "1 up".toList), ("p/sub/9_x.up.sql".toList, "9 up".toList)] }

/-- The configuration for `nestedStore`. -/
def nestedConfig : Config :=
  { Bucket := "b".toList, Prefix := "p/".toList }

/-! # Theorems -/

/-! ## The version map -/

theorem VersionMap.get_set (m : VersionMap) (v w : Nat) (h : Halves) :
    (VersionMap.set m v h).get w = if v = w then some h else VersionMap.get m w := by
  induction m with
  | nil => simp [VersionMap.set, VersionMap.get]
  | cons p rest ih =>
    obtain ⟨k, h'⟩ := p
    by_cases hk : k = v
    · subst hk
      by_cases hw : k = w <;> simp [VersionMap.set, VersionMap.get, hw]
    · by_cases hw : k = w
      · subst hw
        have : ¬ v = k := fun e => hk e.symm
        simp [VersionMap.set, VersionMap.get, hk, this]
      · simp [VersionMap.set, VersionMap.get, hk, hw, ih]

theorem VersionMap.get_eq_none_iff (m : VersionMap) (v : Nat) :
    VersionMap.get m v = none ↔ v ∉ VersionMap.keys m := by
  induction m with
  | nil => simp [VersionMap.get, VersionMap.keys]
  | cons p rest ih =>
    obtain ⟨k, h'⟩ := p
    by_cases hk : k = v
    · simp [VersionMap.get, VersionMap.keys, hk]
    · have : ¬ v = k := fun e => hk e.symm
      simp only [VersionMap.keys] at ih
      simp [VersionMap.get, VersionMap.keys, hk, this, ih]

theorem VersionMap.keys_set (m : VersionMap) (v : Nat) (h : Halves) :
    VersionMap.keys (VersionMap.set m v h) =
      if v ∈ VersionMap.keys m then VersionMap.keys m else VersionMap.keys m ++ [v] := by
  induction m with
  | nil => simp [VersionMap.set, VersionMap.keys]
  | cons p rest ih =>
    obtain ⟨k, h'⟩ := p
    simp only [VersionMap.keys] at ih
    by_cases hk : k = v
    · simp [VersionMap.set, VersionMap.keys, hk]
    · have : ¬ v = k := fun e => hk e.symm
      simp only [VersionMap.set, VersionMap.keys, hk, if_false, List.map_cons, ih,
        List.mem_cons, this, false_or]
      split <;> simp

theorem VersionMap.mem_keys_set (m : VersionMap) (v w : Nat) (h : Halves) :
    w ∈ VersionMap.keys (VersionMap.set m v h) ↔ w = v ∨ w ∈ VersionMap.keys m := by
  rw [VersionMap.keys_set]
  split
  · constructor
    · exact Or.inr
    · rintro (rfl | hw)
      · assumption
      · exact hw
  · simp [or_comm]

theorem VersionMap.nodup_keys_set (m : VersionMap) (v : Nat) (h : Halves)
    (hm : (VersionMap.keys m).Nodup) : (VersionMap.keys (VersionMap.set m v h)).Nodup := by
  rw [VersionMap.keys_set]
  split
  · exact hm
  · rename_i hv
    rw [List.nodup_append]
    refine ⟨hm, List.nodup_singleton v, ?_⟩
    intro a ha hb
    simp at hb
    subst hb
    exact hv ha

/-! ## The catalog -/

theorem Migrations.Up_eq (i : Migrations) (v : Nat) : i.Up v = i.lookup v Direction.Up := rfl

theorem Migrations.Down_eq (i : Migrations) (v : Nat) : i.Down v = i.lookup v Direction.Down := rfl

theorem Halves.get_of_set (h : Halves) (d e : Direction) (m : Migration) :
    (h.set d m).get e = if d = e then some m else h.get e := by
  cases d <;> cases e <;> simp [Halves.set, Halves.get]

theorem represents_new : Represents NewMigrations [] := by
  constructor <;> simp [NewMigrations, VersionMap.keys, Migrations.lookup, VersionMap.get]

theorem Migrations.Append_dup (i : Migrations) (m : Migration)
    (h : i.lookup m.Version m.Direction ≠ none) : (i.Append m).2 = false := by
  unfold Migrations.lookup at h
  unfold Migrations.Append
  cases hg : VersionMap.get i.migrations m.Version with
  | none => simp [hg] at h
  | some inner =>
    simp only [hg] at h
    cases hd : inner.get m.Direction with
    | none => exact absurd hd h
    | some x => simp [hg, hd]

theorem Migrations.Append_fresh (i : Migrations) (m : Migration)
    (h : i.lookup m.Version m.Direction = none) :
    (i.Append m).2 = true ∧
    (∀ w e, (i.Append m).1.lookup w e =
      if m.Version = w ∧ m.Direction = e then some m else i.lookup w e) ∧
    (∀ w, w ∈ VersionMap.keys (i.Append m).1.migrations ↔
      w = m.Version ∨ w ∈ VersionMap.keys i.migrations) ∧
    ((VersionMap.keys i.migrations).Nodup → (VersionMap.keys (i.Append m).1.migrations).Nodup) ∧
    (i.Append m).1.index = (VersionMap.keys (i.Append m).1.migrations).insertionSort (· ≤ ·) := by
  unfold Migrations.lookup at h
  cases hg : VersionMap.get i.migrations m.Version with
  | none =>
    have hA : i.Append m = (Migrations.buildIndex { i with migrations :=
        (VersionMap.set (VersionMap.set i.migrations m.Version { up := none, down := none })
          m.Version (Halves.set { up := none, down := none } m.Direction m)) }, true) := by
      unfold Migrations.Append
      simp [hg, VersionMap.get_set, Halves.get]
      cases m.Direction <;> rfl
    rw [hA]
    refine ⟨rfl, ?_, ?_, ?_, rfl⟩
    · intro w e
      simp only [Migrations.lookup, Migrations.buildIndex, VersionMap.get_set]
      by_cases hw : m.Version = w
      · subst hw
        simp [Halves.get_of_set, hg]
        by_cases he : m.Direction = e
        · simp [he]
        · simp [he]; cases e <;> rfl
      · simp [hw]
    · intro w
      simp only [Migrations.buildIndex, VersionMap.mem_keys_set]
      tauto
    · intro hn
      exact VersionMap.nodup_keys_set _ _ _ (VersionMap.nodup_keys_set _ _ _ hn)
  | some inner =>
    simp only [hg] at h
    have hA : i.Append m = (Migrations.buildIndex { i with migrations :=
        (VersionMap.set i.migrations m.Version (Halves.set inner m.Direction m)) }, true) := by
      unfold Migrations.Append
      simp [hg, h]
    rw [hA]
    refine ⟨rfl, ?_, ?_, ?_, rfl⟩
    · intro w e
      simp only [Migrations.lookup, Migrations.buildIndex, VersionMap.get_set]
      by_cases hw : m.Version = w
      · subst hw
        simp [Halves.get_of_set, hg]
      · simp [hw]
    · intro w
      simp only [Migrations.buildIndex, VersionMap.mem_keys_set]
    · intro hn
      exact VersionMap.nodup_keys_set _ _ _ hn

theorem Represents.slot_free {i : Migrations} {ms : List Migration} (hr : Represents i ms)
    (m : Migration) : i.lookup m.Version m.Direction = none ↔ m.slot ∉ ms.map Migration.slot := by
  constructor
  · intro h hmem
    obtain ⟨m', hm', hs⟩ := List.mem_map.1 hmem
    have h1 : i.lookup m.Version m.Direction = some m' := by
      rw [hr.lookup_iff]
      simp only [Migration.slot, Prod.mk.injEq] at hs
      exact ⟨hm', hs.1, hs.2⟩
    rw [h] at h1
    cases h1
  · intro h
    cases hl : i.lookup m.Version m.Direction with
    | none => rfl
    | some m' =>
      exfalso
      apply h
      obtain ⟨hm', hv, hd⟩ := (hr.lookup_iff _ _ _).1 hl
      exact List.mem_map.2 ⟨m', hm', by simp [Migration.slot, hv, hd]⟩

theorem Represents.append {i : Migrations} {ms : List Migration} (hr : Represents i ms)
    (m : Migration) (hfree : m.slot ∉ ms.map Migration.slot) :
    (i.Append m).2 = true ∧ Represents (i.Append m).1 (ms ++ [m]) := by
  have h0 := (hr.slot_free m).2 hfree
  obtain ⟨h1, h2, h3, h4, h5⟩ := Migrations.Append_fresh i m h0
  refine ⟨h1, ⟨h4 hr.nodup_keys, h5, ?_, ?_⟩⟩
  · intro v d m'
    rw [h2]
    by_cases hc : m.Version = v ∧ m.Direction = d
    · obtain ⟨hv, hd⟩ := hc
      subst hv hd
      simp only [and_self, if_true, Option.some.injEq, List.mem_append, List.mem_singleton]
      constructor
      · rintro rfl
        exact ⟨Or.inr rfl, rfl, rfl⟩
      · rintro ⟨hm' | hm', hv, hd⟩
        · exfalso
          apply hfree
          exact List.mem_map.2 ⟨m', hm', by simp [Migration.slot, hv, hd]⟩
        · exact hm'.symm
    · rw [if_neg hc, hr.lookup_iff]
      simp only [List.mem_append, List.mem_singleton]
      constructor
      · rintro ⟨a, b, c⟩
        exact ⟨Or.inl a, b, c⟩
      · rintro ⟨a | a, b, c⟩
        · exact ⟨a, b, c⟩
        · subst a
          exact absurd ⟨b, c⟩ hc
  · intro v
    rw [h3, hr.mem_keys]
    simp only [List.mem_append, List.mem_singleton]
    constructor
    · rintro (rfl | ⟨m', hm', hv⟩)
      · exact ⟨m, Or.inr rfl, rfl⟩
      · exact ⟨m', Or.inl hm', hv⟩
    · rintro ⟨m', hm' | hm', hv⟩
      · exact Or.inr ⟨m', hm', hv⟩
      · subst hm'
        exact Or.inl hv.symm

theorem Represents.append_dup {i : Migrations} {ms : List Migration} (hr : Represents i ms)
    (m : Migration) (hdup : m.slot ∈ ms.map Migration.slot) : (i.Append m).2 = false := by
  apply Migrations.Append_dup
  intro h
  exact (hr.slot_free m).1 h hdup

/-! ## The loading loop -/

theorem slots_parsedOf (keys : List GoString) :
    (parsedOf keys).map Migration.slot = keys.filterMap slotOf := by
  simp only [parsedOf, List.map_filterMap]
  rfl

theorem loadLoop_cons_none (cat : Migrations) (key : GoString) (rest : List GoString)
    (h : parseKey key = none) : loadLoop cat (key :: rest) = loadLoop cat rest := by
  unfold parseKey at h
  simp [loadLoop, h]

theorem loadLoop_cons_ok (cat : Migrations) (key : GoString) (rest : List GoString)
    (m : Migration) (h : parseKey key = some m) (ha : (cat.Append m).2 = true) :
    loadLoop cat (key :: rest) = loadLoop (cat.Append m).1 rest := by
  unfold parseKey at h
  have : cat.Append m = ((cat.Append m).1, true) := by rw [← ha]
  simp only [loadLoop, h]
  rw [this]

theorem loadLoop_cons_dup (cat : Migrations) (key : GoString) (rest : List GoString)
    (m : Migration) (h : parseKey key = some m) (ha : (cat.Append m).2 = false) :
    loadLoop cat (key :: rest) = ((cat.Append m).1, some (ambiguousError key)) := by
  unfold parseKey at h
  have : cat.Append m = ((cat.Append m).1, false) := by rw [← ha]
  simp only [loadLoop, h]
  rw [this]
  rfl

theorem loadLoop_ok (keys : List GoString) : ∀ (cat : Migrations) (ms : List Migration),
    Represents cat ms → ((ms ++ parsedOf keys).map Migration.slot).Nodup →
    (loadLoop cat keys).2 = none ∧ Represents (loadLoop cat keys).1 (ms ++ parsedOf keys) := by
  induction keys with
  | nil =>
    intro cat ms hr _
    simpa [loadLoop, parsedOf] using hr
  | cons key rest ih =>
    intro cat ms hr hn
    cases hp : parseKey key with
    | none =>
      rw [loadLoop_cons_none _ _ _ hp]
      have : parsedOf (key :: rest) = parsedOf rest := by simp [parsedOf, hp]
      rw [this] at hn ⊢
      exact ih cat ms hr hn
    | some m =>
      have hpo : parsedOf (key :: rest) = m :: parsedOf rest := by simp [parsedOf, hp]
      rw [hpo] at hn ⊢
      have hassoc : ms ++ m :: parsedOf rest = (ms ++ [m]) ++ parsedOf rest := by simp
      rw [hassoc] at hn ⊢
      have hfree : m.slot ∉ ms.map Migration.slot := by
        intro hmem
        rw [List.map_append, List.map_append] at hn
        have h1 := (List.nodup_append.1 hn).1
        have h2 := List.nodup_append.1 h1
        exact h2.2.2 hmem (by simp)
      obtain ⟨ha, hr'⟩ := hr.append m hfree
      rw [loadLoop_cons_ok _ _ _ m hp ha]
      exact ih _ _ hr' hn

theorem loadLoop_err (pre : List GoString) (k : GoString) (post : List GoString) (m : Migration) :
    ∀ (cat : Migrations) (ms : List Migration),
    Represents cat ms → ((ms ++ parsedOf pre).map Migration.slot).Nodup →
    parseKey k = some m → m.slot ∈ (ms ++ parsedOf pre).map Migration.slot →
    (loadLoop cat (pre ++ k :: post)).2 = some (ambiguousError k) := by
  induction pre with
  | nil =>
    intro cat ms hr _ hk hdup
    simp only [parsedOf, List.filterMap_nil, List.append_nil] at hdup
    have ha := hr.append_dup m hdup
    rw [List.nil_append, loadLoop_cons_dup _ _ _ m hk ha]
  | cons key rest ih =>
    intro cat ms hr hn hk hdup
    rw [List.cons_append]
    cases hp : parseKey key with
    | none =>
      rw [loadLoop_cons_none _ _ _ hp]
      have : parsedOf (key :: rest) = parsedOf rest := by simp [parsedOf, hp]
      rw [this] at hn hdup
      exact ih cat ms hr hn hk hdup
    | some m' =>
      have hpo : parsedOf (key :: rest) = m' :: parsedOf rest := by simp [parsedOf, hp]
      rw [hpo] at hn hdup
      have hassoc : ms ++ m' :: parsedOf rest = (ms ++ [m']) ++ parsedOf rest := by simp
      rw [hassoc] at hn hdup
      have hfree : m'.slot ∉ ms.map Migration.slot := by
        intro hmem
        rw [List.map_append, List.map_append] at hn
        have h1 := (List.nodup_append.1 hn).1
        have h2 := List.nodup_append.1 h1
        exact h2.2.2 hmem (by simp)
      obtain ⟨ha, hr'⟩ := hr.append m' hfree
      rw [loadLoop_cons_ok _ _ _ m' hp ha]
      exact ih _ _ hr' hn hk hdup

/-- A list whose images under `f` repeat has a first element whose image was
already seen. -/
theorem exists_first_dup {α β : Type} (f : α → Option β) (l : List α)
    (h : ¬ (l.filterMap f).Nodup) :
    ∃ pre x post s, l = pre ++ x :: post ∧ (pre.filterMap f).Nodup ∧ f x = some s ∧
      s ∈ pre.filterMap f := by
  induction l using List.reverseRecOn with
  | nil => simp at h
  | append_singleton l x ih =>
    by_cases hl : (l.filterMap f).Nodup
    · cases hx : f x with
      | none =>
        exfalso
        apply h
        simpa [List.filterMap_append, hx] using hl
      | some s =>
        refine ⟨l, x, [], s, rfl, hl, hx, ?_⟩
        by_contra hs
        apply h
        rw [List.filterMap_append, List.nodup_append]
        refine ⟨hl, ?_, ?_⟩
        · simp [List.filterMap, hx]
        · intro a ha hb
          simp [List.filterMap, hx] at hb
          subst hb
          exact hs ha
    · obtain ⟨pre, y, post, s, hl', hpre, hy, hs⟩ := ih hl
      exact ⟨pre, y, post ++ [x], s, by simp [hl'], hpre, hy, hs⟩

/-- The loop started from the empty catalog succeeds exactly on listings
without a repeated slot. -/
theorem loadLoop_new_ok_iff (keys : List GoString) :
    (loadLoop NewMigrations keys).2 = none ↔ (keys.filterMap slotOf).Nodup := by
  constructor
  · intro h
    by_contra hn
    obtain ⟨pre, k, post, s, hk, hpre, hks, hs⟩ := exists_first_dup slotOf keys hn
    unfold slotOf at hks
    cases hp : parseKey k with
    | none => simp [hp] at hks
    | some m =>
      simp only [hp, Option.map_some', Option.some.injEq] at hks
      have := loadLoop_err pre k post m NewMigrations [] represents_new
        (by simpa [slots_parsedOf] using hpre) hp
        (by simpa [slots_parsedOf, hks] using hs)
      rw [← hk, h] at this
      cases this
  · intro h
    exact (loadLoop_ok keys NewMigrations [] represents_new
      (by simpa [slots_parsedOf] using h)).1

theorem loadLoop_new_represents (keys : List GoString) (h : (keys.filterMap slotOf).Nodup) :
    Represents (loadLoop NewMigrations keys).1 (parsedOf keys) := by
  simpa using (loadLoop_ok keys NewMigrations [] represents_new
      (by simpa [slots_parsedOf] using h)).2

theorem nodup_slots_iff_pairwise (keys : List GoString) :
    (keys.filterMap slotOf).Nodup ↔
      keys.Pairwise (fun a b => ∀ s, slotOf a = some s → slotOf b ≠ some s) := by
  unfold List.Nodup
  rw [List.pairwise_filterMap]
  constructor
  · intro h
    refine h.imp ?_
    intro a b hab s ha hb
    exact hab s ha s hb rfl
  · intro h
    refine h.imp ?_
    intro a b hab s ha s' hb hss
    subst hss
    exact hab s ha hb

theorem loadMigrations_eq (s : s3Driver) (keys : List GoString)
    (hlist : s.s3client.ListObjectsV2 (listRequest s.cfg) = .ok keys) :
    s.loadMigrations = ({ s with migrations := (loadLoop s.migrations keys).1 },
      (loadLoop s.migrations keys).2) := by
  unfold listRequest at hlist
  unfold s3Driver.loadMigrations
  rw [hlist]

theorem WithInstance_ok (s3client : S3er) (cfg : Config) (keys : List GoString)
    (hlist : s3client.ListObjectsV2 (listRequest cfg) = .ok keys)
    (hn : (keys.filterMap slotOf).Nodup) :
    WithInstance s3client cfg =
      (some { s3client := s3client, cfg := cfg, migrations := (loadLoop NewMigrations keys).1 },
        none) := by
  have h := (loadLoop_new_ok_iff keys).2 hn
  unfold WithInstance
  simp only []
  rw [loadMigrations_eq _ keys hlist]
  simp only [h]

theorem WithInstance_err (s3client : S3er) (cfg : Config) (keys : List GoString)
    (hlist : s3client.ListObjectsV2 (listRequest cfg) = .ok keys) (err : GoError)
    (he : (loadLoop NewMigrations keys).2 = some err) :
    WithInstance s3client cfg = (none, some err) := by
  unfold WithInstance
  simp only []
  rw [loadMigrations_eq _ keys hlist]
  simp only [he]

/-- A driver built by `WithInstance` from a listing: the listing has no
repeated slot, and the driver holds the given client and configuration and the
catalog of the loop. -/
theorem WithInstance_some (s3client : S3er) (cfg : Config) (keys : List GoString)
    (hlist : s3client.ListObjectsV2 (listRequest cfg) = .ok keys) (d : s3Driver)
    (hd : (WithInstance s3client cfg).1 = some d) :
    (keys.filterMap slotOf).Nodup ∧
      d = { s3client := s3client, cfg := cfg, migrations := (loadLoop NewMigrations keys).1 } := by
  by_cases hn : (keys.filterMap slotOf).Nodup
  · rw [WithInstance_ok s3client cfg keys hlist hn] at hd
    simp only [Option.some.injEq] at hd
    exact ⟨hn, hd.symm⟩
  · exfalso
    cases he : (loadLoop NewMigrations keys).2 with
    | none => exact hn ((loadLoop_new_ok_iff keys).1 he)
    | some err =>
      rw [WithInstance_err s3client cfg keys hlist err he] at hd
      cases hd

/-- C1. When two entries of the listing returned by `ListObjectsV2` have leaf
names that parse to the same (version, direction), `WithInstance` returns no
driver and the error "unable to parse file <key>", where <key> is the full key
of the first entry of the listing whose slot is already taken by an entry
before it. -/
theorem WithInstance_ambiguous (s3client : S3er) (cfg : Config) (keys : List GoString)
    (hlist : s3client.ListObjectsV2
      { Bucket := cfg.Bucket, Prefix := cfg.Prefix, Delimiter := "/".toList } = .ok keys)
    (hdup : ∃ l₁ k₁ l₂ k₂ l₃ v d, keys = l₁ ++ k₁ :: (l₂ ++ k₂ :: l₃) ∧
      (∃ m, DefaultParse (pathSplit k₁).2 = some m ∧ m.Version = v ∧ m.Direction = d) ∧
      (∃ m, DefaultParse (pathSplit k₂).2 = some m ∧ m.Version = v ∧ m.Direction = d)) :
    ∃ pre key post, keys = pre ++ key :: post ∧
      (pre.filterMap slotOf).Nodup ∧
      (∃ s, slotOf key = some s ∧ s ∈ pre.filterMap slotOf) ∧
      WithInstance s3client cfg =
        (none, some (GoError.New ("unable to parse file ".toList ++ key))) ∧
      (GoError.New ("unable to parse file ".toList ++ key)).Error =
        "unable to parse file ".toList ++ key := by
  have hn : ¬ (keys.filterMap slotOf).Nodup := by
    obtain ⟨l₁, k₁, l₂, k₂, l₃, v, d, hk, ⟨m₁, hp₁, hv₁, hd₁⟩, ⟨m₂, hp₂, hv₂, hd₂⟩⟩ := hdup
    have h1 : slotOf k₁ = some (v, d) := by
      simp [slotOf, parseKey, hp₁, Migration.slot, hv₁, hd₁]
    have h2 : slotOf k₂ = some (v, d) := by
      simp [slotOf, parseKey, hp₂, Migration.slot, hv₂, hd₂]
    intro hnd
    rw [hk] at hnd
    simp [List.filterMap_append, List.filterMap_cons, h1, h2, List.nodup_append] at hnd
  obtain ⟨pre, k, post, s, hk, hpre, hks, hs⟩ := exists_first_dup slotOf keys hn
  refine ⟨pre, k, post, hk, hpre, ⟨s, hks, hs⟩, ?_, rfl⟩
  apply WithInstance_err s3client cfg keys hlist
  have hks' := hks
  unfold slotOf at hks'
  cases hp : parseKey k with
  | none => simp [hp] at hks'
  | some m =>
    simp only [hp, Option.map_some', Option.some.injEq] at hks'
    have := loadLoop_err pre k post m NewMigrations [] represents_new
      (by simpa [slots_parsedOf] using hpre) hp
      (by simpa [slots_parsedOf, hks'] using hs)
    rw [← hk] at this
    exact this

/-- C1, at the store `{5_a.up.sql, 5_b.up.sql}`: opening fails and the error
names `5_b.up.sql`, the second of the two files. -/
theorem WithInstance_ambiguous_witness :
    (∃ pre key post, ["5_a.up.sql".toList, "5_b.up.sql".toList] = pre ++ key :: post ∧
      (pre.filterMap slotOf).Nodup ∧
      (∃ s, slotOf key = some s ∧ s ∈ pre.filterMap slotOf) ∧
      WithInstance ambiguousStore.client { Bucket := "b".toList, Prefix := [] } =
        (none, some (GoError.New ("unable to parse file ".toList ++ key))) ∧
      (GoError.New ("unable to parse file ".toList ++ key)).Error =
        "unable to parse file ".toList ++ key) ∧
    (WithInstance ambiguousStore.client { Bucket := "b".toList, Prefix := [] }).2 =
      some (GoError.New "unable to parse file 5_b.up.sql".toList) :=
  ⟨WithInstance_ambiguous ambiguousStore.client { Bucket := "b".toList, Prefix := [] }
      ["5_a.up.sql".toList, "5_b.up.sql".toList] rfl
      ⟨[], "5_a.up.sql".toList, [], "5_b.up.sql".toList, [], 5, Direction.Up, rfl,
        ⟨_, rfl, rfl, rfl⟩, ⟨_, rfl, rfl, rfl⟩⟩,
    by decide⟩

/-! ## The index and the binary search -/

theorem sortSearchLoop_spec (f : Nat → Bool) (n : Nat)
    (hmono : ∀ a b, a ≤ b → b < n → f a = true → f b = true) :
    ∀ fuel i j, i ≤ j → j ≤ n → j - i ≤ fuel → (∀ a, a < i → f a = false) →
      (∀ a, j ≤ a → a < n → f a = true) →
      sortSearchLoop f fuel i j ≤ n ∧ (∀ a, a < sortSearchLoop f fuel i j → f a = false) ∧
        (∀ a, sortSearchLoop f fuel i j ≤ a → a < n → f a = true) := by
  intro fuel
  induction fuel with
  | zero =>
    intro i j hij hjn hfuel hlo hhi
    have : i = j := by omega
    subst this
    simp only [sortSearchLoop]
    exact ⟨hjn, hlo, hhi⟩
  | succ fuel ih =>
    intro i j hij hjn hfuel hlo hhi
    simp only [sortSearchLoop]
    by_cases hlt : i < j
    · simp only [hlt, if_true]
      have hh1 : i ≤ (i + j) / 2 := by omega
      have hh2 : (i + j) / 2 < j := by omega
      cases hf : f ((i + j) / 2) with
      | false =>
        simp only [Bool.not_false, if_true]
        apply ih _ _ (by omega) hjn (by omega) _ hhi
        intro a ha
        cases hfa : f a with
        | false => rfl
        | true =>
          have := hmono a ((i + j) / 2) (by omega) (by omega) hfa
          rw [hf] at this
          cases this
      | true =>
        simp only [Bool.not_true, Bool.false_eq_true, if_false]
        apply ih _ _ hh1 (by omega) (by omega) hlo
        intro a ha han
        exact hmono _ a ha han hf
    · simp only [hlt, if_false]
      have : i = j := by omega
      subst this
      exact ⟨hjn, hlo, hhi⟩

theorem sorted_getD_lt {l : List Nat} (hs : l.Sorted (· < ·)) {a b : Nat} (hab : a < b)
    (hb : b < l.length) : l.getD a 0 < l.getD b 0 := by
  have ha : a < l.length := by omega
  rw [List.getD_eq_getElem _ _ ha, List.getD_eq_getElem _ _ hb]
  exact (List.pairwise_iff_getElem.1 hs) a b ha hb hab

theorem sorted_getD_le {l : List Nat} (hs : l.Sorted (· < ·)) {a b : Nat} (hab : a ≤ b)
    (hb : b < l.length) : l.getD a 0 ≤ l.getD b 0 := by
  rcases Nat.eq_or_lt_of_le hab with h | h
  · subst h
    exact le_refl _
  · exact le_of_lt (sorted_getD_lt hs h hb)

theorem mem_iff_getD (l : List Nat) (v : Nat) :
    v ∈ l ↔ ∃ p, p < l.length ∧ l.getD p 0 = v := by
  rw [List.mem_iff_getElem]
  constructor
  · rintro ⟨p, hp, h⟩
    exact ⟨p, hp, by rw [List.getD_eq_getElem _ _ hp]; exact h⟩
  · rintro ⟨p, hp, h⟩
    exact ⟨p, hp, by rw [List.getD_eq_getElem _ _ hp] at h; exact h⟩

/-- On a strictly increasing slice, `Search` finds the position of a member. -/
theorem uintSliceSearch_of_mem {l : List Nat} (hs : l.Sorted (· < ·)) {p : Nat}
    (hp : p < l.length) : uintSliceSearch l (l.getD p 0) = p := by
  have hmono : ∀ a b, a ≤ b → b < l.length →
      decide (l.getD a 0 ≥ l.getD p 0) = true → decide (l.getD b 0 ≥ l.getD p 0) = true := by
    intro a b hab hb ha
    simp only [decide_eq_true_eq] at ha ⊢
    exact le_trans ha (sorted_getD_le hs hab hb)
  obtain ⟨_, h2, h3⟩ := sortSearchLoop_spec (fun i => decide (l.getD i 0 ≥ l.getD p 0)) l.length
    hmono l.length 0 l.length (Nat.zero_le _) (le_refl _) (by omega)
    (fun a ha => absurd ha (Nat.not_lt_zero a)) (fun a ha han => absurd han (by omega))
  have hr : sortSearch l.length (fun i => decide (l.getD i 0 ≥ l.getD p 0)) =
      sortSearchLoop (fun i => decide (l.getD i 0 ≥ l.getD p 0)) l.length 0 l.length := rfl
  unfold uintSliceSearch
  rw [hr]
  set r := sortSearchLoop (fun i => decide (l.getD i 0 ≥ l.getD p 0)) l.length 0 l.length with hrdef
  rcases Nat.lt_trichotomy r p with h | h | h
  · have := h3 r (le_refl _) (by omega)
    simp only [decide_eq_true_eq] at this
    have := sorted_getD_lt hs h hp
    omega
  · exact h
  · have := h2 p h
    simp at this

theorem Migrations.findPos_of_not_mem (i : Migrations) (v : Nat) (h : v ∉ i.index) :
    i.findPos v = -1 := by
  unfold Migrations.findPos
  split
  · simp only []
    split
    · rename_i _ hc
      exfalso
      exact h ((mem_iff_getD _ _).2 ⟨_, hc.1, hc.2⟩)
    · rfl
  · rfl

theorem Migrations.findPos_of_mem (i : Migrations) (hs : i.index.Sorted (· < ·)) (p : Nat)
    (hp : p < i.index.length) : i.findPos (i.index.getD p 0) = (p : Int) := by
  unfold Migrations.findPos
  have hlen : i.index.length > 0 := by omega
  simp only [hlen, if_true, uintSliceSearch_of_mem hs hp, hp, true_and]

theorem Migrations.Next_of_not_mem (i : Migrations) (v : Nat) (h : v ∉ i.index) :
    i.Next v = (0, false) := by
  unfold Migrations.Next
  rw [Migrations.findPos_of_not_mem i v h]
  simp

theorem Migrations.Next_of_mem (i : Migrations) (hs : i.index.Sorted (· < ·)) (p : Nat)
    (hp : p < i.index.length) :
    i.Next (i.index.getD p 0) =
      if p + 1 < i.index.length then (i.index.getD (p + 1) 0, true) else (0, false) := by
  unfold Migrations.Next
  rw [Migrations.findPos_of_mem i hs p hp]
  by_cases h : p + 1 < i.index.length
  · have h1 : (0 : Int) ≤ (p : Int) ∧ (i.index.length : Int) > (p : Int) + 1 := by omega
    have h2 : ((p : Int) + 1).toNat = p + 1 := by omega
    simp only [ge_iff_le, h1, and_self, if_true, h2, h]
  · have h1 : ¬ ((0 : Int) ≤ (p : Int) ∧ (i.index.length : Int) > (p : Int) + 1) := by omega
    simp only [ge_iff_le, h1, if_false, h]

theorem Migrations.Prev_of_not_mem (i : Migrations) (v : Nat) (h : v ∉ i.index) :
    i.Prev v = (0, false) := by
  unfold Migrations.Prev
  rw [Migrations.findPos_of_not_mem i v h]
  simp

theorem Migrations.Prev_of_mem (i : Migrations) (hs : i.index.Sorted (· < ·)) (p : Nat)
    (hp : p < i.index.length) :
    i.Prev (i.index.getD p 0) = if 1 ≤ p then (i.index.getD (p - 1) 0, true) else (0, false) := by
  unfold Migrations.Prev
  rw [Migrations.findPos_of_mem i hs p hp]
  by_cases h : 1 ≤ p
  · have h1 : (1 : Int) ≤ (p : Int) ∧ (i.index.length : Int) > (p : Int) - 1 := by omega
    have h2 : ((p : Int) - 1).toNat = p - 1 := by omega
    simp only [ge_iff_le, h1, and_self, if_true, h2, h]
  · have h1 : ¬ ((1 : Int) ≤ (p : Int) ∧ (i.index.length : Int) > (p : Int) - 1) := by omega
    simp only [ge_iff_le, h1, if_false, h]

theorem Represents.index_sorted {i : Migrations} {ms : List Migration} (hr : Represents i ms) :
    i.index.Sorted (· < ·) := by
  rw [hr.index_eq]
  apply List.Sorted.lt_of_le (List.sorted_insertionSort _ _)
  exact (List.perm_insertionSort _ _).nodup_iff.2 hr.nodup_keys

theorem Represents.mem_index {i : Migrations} {ms : List Migration} (hr : Represents i ms)
    (v : Nat) : v ∈ i.index ↔ ∃ m ∈ ms, m.Version = v := by
  rw [hr.index_eq, (List.perm_insertionSort _ _).mem_iff]
  exact hr.mem_keys v

/-! ## Drivers built by `WithInstance` -/

theorem unambiguous_iff_nodup (keys : List GoString) :
    Unambiguous keys ↔ (keys.filterMap slotOf).Nodup := by
  rw [nodup_slots_iff_pairwise]
  unfold Unambiguous
  constructor
  · intro h
    refine h.imp ?_
    intro a b hab s ha hb
    apply hab
    unfold slotOf parseKey at ha hb
    cases h1 : DefaultParse (pathSplit a).2 with
    | none => simp [h1] at ha
    | some m₁ =>
      cases h2 : DefaultParse (pathSplit b).2 with
      | none => simp [h2] at hb
      | some m₂ =>
        simp only [h1, h2, Option.map_some', Option.some.injEq, Migration.slot] at ha hb
        refine ⟨m₁, m₂, h1, h2, ?_, ?_⟩
        · have := congrArg Prod.fst (ha.trans hb.symm)
          exact this
        · have := congrArg Prod.snd (ha.trans hb.symm)
          exact this
  · intro h
    refine h.imp ?_
    intro a b hab hss
    obtain ⟨m₁, m₂, h1, h2, hv, hd⟩ := hss
    apply hab m₁.slot
    · simp [slotOf, parseKey, h1]
    · simp [slotOf, parseKey, h2, Migration.slot, hv, hd]

theorem mem_parsedOf (keys : List GoString) (m : Migration) :
    m ∈ parsedOf keys ↔ ∃ k ∈ keys, DefaultParse (pathSplit k).2 = some m := by
  simp [parsedOf, parseKey, List.mem_filterMap]

theorem WithInstance_represents (s3client : S3er) (cfg : Config) (keys : List GoString)
    (hlist : s3client.ListObjectsV2 (listRequest cfg) = .ok keys) (d : s3Driver)
    (hd : WithInstance s3client cfg = (some d, none)) :
    Represents d.migrations (parsedOf keys) ∧ d.cfg = cfg ∧ d.s3client = s3client := by
  have h1 : (WithInstance s3client cfg).1 = some d := by rw [hd]
  obtain ⟨hn, hdeq⟩ := WithInstance_some s3client cfg keys hlist d h1
  subst hdeq
  exact ⟨loadLoop_new_represents keys hn, rfl, rfl⟩

theorem Represents.up_iff {i : Migrations} {keys : List GoString}
    (hr : Represents i (parsedOf keys)) (v : Nat) (m : Migration) :
    i.Up v = some m ↔
      ∃ k ∈ keys, DefaultParse (pathSplit k).2 = some m ∧ m.Version = v ∧
        m.Direction = Direction.Up := by
  rw [Migrations.Up_eq, hr.lookup_iff, mem_parsedOf]
  constructor
  · rintro ⟨⟨k, hk, hp⟩, hv, hd⟩
    exact ⟨k, hk, hp, hv, hd⟩
  · rintro ⟨k, hk, hp, hv, hd⟩
    exact ⟨⟨k, hk, hp⟩, hv, hd⟩

theorem Represents.down_iff {i : Migrations} {keys : List GoString}
    (hr : Represents i (parsedOf keys)) (v : Nat) (m : Migration) :
    i.Down v = some m ↔
      ∃ k ∈ keys, DefaultParse (pathSplit k).2 = some m ∧ m.Version = v ∧
        m.Direction = Direction.Down := by
  rw [Migrations.Down_eq, hr.lookup_iff, mem_parsedOf]
  constructor
  · rintro ⟨⟨k, hk, hp⟩, hv, hd⟩
    exact ⟨k, hk, hp, hv, hd⟩
  · rintro ⟨k, hk, hp, hv, hd⟩
    exact ⟨⟨k, hk, hp⟩, hv, hd⟩

theorem Represents.index_iff {i : Migrations} {keys : List GoString}
    (hr : Represents i (parsedOf keys)) (v : Nat) :
    v ∈ i.index ↔ ∃ k ∈ keys, ∃ m, DefaultParse (pathSplit k).2 = some m ∧ m.Version = v := by
  rw [hr.mem_index]
  constructor
  · rintro ⟨m, hm, hv⟩
    obtain ⟨k, hk, hp⟩ := (mem_parsedOf keys m).1 hm
    exact ⟨k, hk, m, hp, hv⟩
  · rintro ⟨k, hk, m, hp, hv⟩
    exact ⟨m, (mem_parsedOf keys m).2 ⟨k, hk, hp⟩, hv⟩

theorem Represents.present_iff {i : Migrations} {ms : List Migration} (hr : Represents i ms)
    (v : Nat) : ((i.Up v).isSome = true ∨ (i.Down v).isSome = true) ↔ v ∈ i.index := by
  rw [hr.mem_index, Migrations.Up_eq, Migrations.Down_eq]
  constructor
  · rintro (h | h)
    · obtain ⟨m, hm⟩ := Option.isSome_iff_exists.1 h
      obtain ⟨h1, h2, _⟩ := (hr.lookup_iff _ _ _).1 hm
      exact ⟨m, h1, h2⟩
    · obtain ⟨m, hm⟩ := Option.isSome_iff_exists.1 h
      obtain ⟨h1, h2, _⟩ := (hr.lookup_iff _ _ _).1 hm
      exact ⟨m, h1, h2⟩
  · rintro ⟨m, hm, hv⟩
    cases hd : m.Direction with
    | Up =>
      left
      rw [(hr.lookup_iff v Direction.Up m).2 ⟨hm, hv, hd⟩]
      rfl
    | Down =>
      right
      rw [(hr.lookup_iff v Direction.Down m).2 ⟨hm, hv, hd⟩]
      rfl

/-- C2. On a listing in which no two entries claim the same (version,
direction), `loadMigrations` returns nil whatever the number of entries that do
not parse, and the catalog holds exactly the parsed entries: a version is in the
index iff the leaf name of some listed key parses with that version, and it has
an up (down) half `m` iff the leaf name of some listed key parses to `m` with
that version and direction up (down). -/
theorem loadMigrations_catalog (s3client : S3er) (cfg : Config) (keys : List GoString)
    (hlist : s3client.ListObjectsV2
      { Bucket := cfg.Bucket, Prefix := cfg.Prefix, Delimiter := "/".toList } = .ok keys)
    (hkeys : Unambiguous keys) :
    (s3Driver.loadMigrations
        { s3client := s3client, cfg := cfg, migrations := NewMigrations }).2 = none ∧
    (∀ v, v ∈ (s3Driver.loadMigrations
        { s3client := s3client, cfg := cfg, migrations := NewMigrations }).1.migrations.index ↔
      ∃ k ∈ keys, ∃ m, DefaultParse (pathSplit k).2 = some m ∧ m.Version = v) ∧
    (∀ v m, (s3Driver.loadMigrations
        { s3client := s3client, cfg := cfg, migrations := NewMigrations }).1.migrations.Up v =
          some m ↔
      ∃ k ∈ keys, DefaultParse (pathSplit k).2 = some m ∧ m.Version = v ∧
        m.Direction = Direction.Up) ∧
    (∀ v m, (s3Driver.loadMigrations
        { s3client := s3client, cfg := cfg, migrations := NewMigrations }).1.migrations.Down v =
          some m ↔
      ∃ k ∈ keys, DefaultParse (pathSplit k).2 = some m ∧ m.Version = v ∧
        m.Direction = Direction.Down) := by
  have hn := (unambiguous_iff_nodup keys).1 hkeys
  rw [loadMigrations_eq _ keys hlist]
  have hr := loadLoop_new_represents keys hn
  exact ⟨(loadLoop_new_ok_iff keys).2 hn, hr.index_iff, hr.up_iff, hr.down_iff⟩

/-- C2 on the store of `TestAWSS3Source`: loading succeeds, the versions are
1, 3, 4, 5, 7, version 3 has no down half and version 5 no up half. -/
theorem loadMigrations_catalog_witness :
    testStore.client.ListObjectsV2 (listRequest testConfig) = .ok testListing ∧
    Unambiguous testListing ∧
    (s3Driver.loadMigrations
        { s3client := testStore.client, cfg := testConfig, migrations := NewMigrations }).2 =
      none ∧
    (∀ v, v ∈ (s3Driver.loadMigrations
        { s3client := testStore.client, cfg := testConfig, migrations := NewMigrations }).1.migrations.index ↔
      ∃ k ∈ testListing, ∃ m, DefaultParse (pathSplit k).2 = some m ∧ m.Version = v) ∧
    (s3Driver.loadMigrations
        { s3client := testStore.client, cfg := testConfig, migrations := NewMigrations }).1.migrations.index = [1, 3, 4, 5, 7] ∧
    (s3Driver.loadMigrations
        { s3client := testStore.client, cfg := testConfig, migrations := NewMigrations }).1.migrations.Down 3 = none ∧
    (s3Driver.loadMigrations
        { s3client := testStore.client, cfg := testConfig, migrations := NewMigrations }).1.migrations.Up 5 = none :=
  ⟨rfl, (unambiguous_iff_nodup _).2 (by decide),
    (loadMigrations_catalog testStore.client testConfig testListing rfl
      ((unambiguous_iff_nodup _).2 (by decide))).1,
    (loadMigrations_catalog testStore.client testConfig testListing rfl
      ((unambiguous_iff_nodup _).2 (by decide))).2.1,
    by decide, by decide, by decide⟩

/-! ## Traversal -/

theorem Migrations.Next_spec (i : Migrations) (hs : i.index.Sorted (· < ·)) (v : Nat)
    (hv : v ∈ i.index) :
    (∃ u, i.Next v = (u, true) ∧ u ∈ i.index ∧ v < u ∧ ∀ w ∈ i.index, v < w → u ≤ w) ∨
      (i.Next v = (0, false) ∧ ∀ w ∈ i.index, w ≤ v) := by
  obtain ⟨p, hp, hpv⟩ := (mem_iff_getD _ _).1 hv
  subst hpv
  rw [Migrations.Next_of_mem i hs p hp]
  by_cases h : p + 1 < i.index.length
  · left
    refine ⟨i.index.getD (p + 1) 0, by simp only [h, if_true], ?_, ?_, ?_⟩
    · exact (mem_iff_getD _ _).2 ⟨p + 1, h, rfl⟩
    · exact sorted_getD_lt hs (Nat.lt_succ_self p) h
    · intro w hw hlt
      obtain ⟨q, hq, hqw⟩ := (mem_iff_getD _ _).1 hw
      subst hqw
      have hpq : p < q := by
        by_contra hc
        have := sorted_getD_le hs (Nat.le_of_not_lt hc) hp
        omega
      exact sorted_getD_le hs hpq hq
  · right
    refine ⟨by simp only [h, if_false], ?_⟩
    intro w hw
    obtain ⟨q, hq, hqw⟩ := (mem_iff_getD _ _).1 hw
    subst hqw
    exact sorted_getD_le hs (by omega) hp

theorem Migrations.First_spec (i : Migrations) (hs : i.index.Sorted (· < ·)) :
    (i.index = [] ∧ i.First = (0, false)) ∨
      (∃ u, i.First = (u, true) ∧ u ∈ i.index ∧ ∀ w ∈ i.index, u ≤ w) := by
  unfold Migrations.First
  cases hi : i.index with
  | nil => exact Or.inl ⟨rfl, rfl⟩
  | cons u rest =>
    right
    refine ⟨u, rfl, by simp, ?_⟩
    intro w hw
    rw [hi] at hs
    rcases List.mem_cons.1 hw with h | h
    · exact le_of_eq h.symm
    · exact le_of_lt (List.rel_of_sorted_cons hs w h)

/-- C3, as amended. For a driver built by `WithInstance` and a version `v`: when
`v` is present in the catalog, `Next(v)` returns the smallest present version
strictly greater than `v`, and `os.ErrNotExist` exactly when no present version
is greater than `v`; when `v` is not present, `Next(v)` returns
`os.ErrNotExist`. -/
theorem Next_of_present_or_absent (s3client : S3er) (cfg : Config) (keys : List GoString)
    (hlist : s3client.ListObjectsV2
      { Bucket := cfg.Bucket, Prefix := cfg.Prefix, Delimiter := "/".toList } = .ok keys)
    (d : s3Driver) (hd : WithInstance s3client cfg = (some d, none)) (v : Nat) :
    (d.present v →
      ((d.Next v).2 = none ∨ d.Next v = (0, some GoError.ErrNotExist)) ∧
      ((d.Next v).2 = none →
        d.present (d.Next v).1 ∧ v < (d.Next v).1 ∧
          ∀ w, d.present w → v < w → (d.Next v).1 ≤ w) ∧
      (d.Next v = (0, some GoError.ErrNotExist) ↔ ∀ w, d.present w → w ≤ v)) ∧
    (¬ d.present v → d.Next v = (0, some GoError.ErrNotExist)) := by
  obtain ⟨hr, _, _⟩ := WithInstance_represents s3client cfg keys hlist d hd
  have hpres : ∀ w, d.present w ↔ w ∈ d.migrations.index := fun w => hr.present_iff w
  constructor
  · intro hv
    rcases Migrations.Next_spec d.migrations hr.index_sorted v ((hpres v).1 hv) with
      ⟨u, hu, hmem, hlt, hmin⟩ | ⟨hnone, hmax⟩
    · have hN : d.Next v = (u, none) := by simp [s3Driver.Next, hu]
      rw [hN]
      refine ⟨Or.inl rfl, fun _ => ⟨(hpres u).2 hmem, hlt, fun w hw => hmin w ((hpres w).1 hw)⟩, ?_⟩
      constructor
      · intro h
        cases h
      · intro h
        have := h u ((hpres u).2 hmem)
        omega
    · have hN : d.Next v = (0, some GoError.ErrNotExist) := by simp [s3Driver.Next, hnone]
      rw [hN]
      refine ⟨Or.inr rfl, (fun h => by cases h), ?_⟩
      constructor
      · intro _ w hw
        exact hmax w ((hpres w).1 hw)
      · intro _
        rfl
  · intro hv
    have : v ∉ d.migrations.index := fun h => hv ((hpres v).2 h)
    simp [s3Driver.Next, Migrations.Next_of_not_mem _ _ this]

/-- C3, as amended, on the store of `TestAWSS3Source`: `Next(1) = 3`,
`Next(7)` and `Next(2)` do not exist. -/
theorem Next_of_present_or_absent_witness :
    ∃ d, WithInstance testStore.client testConfig = (some d, none) ∧
      d.Next 1 = (3, none) ∧ d.Next 7 = (0, some GoError.ErrNotExist) ∧
      d.Next 2 = (0, some GoError.ErrNotExist) ∧
      ((d.present 1 →
        ((d.Next 1).2 = none ∨ d.Next 1 = (0, some GoError.ErrNotExist)) ∧
        ((d.Next 1).2 = none →
          d.present (d.Next 1).1 ∧ 1 < (d.Next 1).1 ∧
            ∀ w, d.present w → 1 < w → (d.Next 1).1 ≤ w) ∧
        (d.Next 1 = (0, some GoError.ErrNotExist) ↔ ∀ w, d.present w → w ≤ 1)) ∧
      (¬ d.present 1 → d.Next 1 = (0, some GoError.ErrNotExist))) :=
  ⟨{ s3client := testStore.client, cfg := testConfig,
      migrations := (loadLoop NewMigrations testListing).1 },
    rfl, by decide, by decide, by decide,
    Next_of_present_or_absent testStore.client testConfig testListing rfl _ rfl 1⟩

/-- C3 as stated fails: in the catalog of `TestAWSS3Source` version 3 is present
and greater than 2, yet `Next(2)` is `os.ErrNotExist`, because 2 itself is
not in the catalog. -/
theorem Next_of_absent_version_counterexample :
    ∃ d, WithInstance testStore.client testConfig = (some d, none) ∧
      d.present 3 ∧ 2 < 3 ∧ d.Next 2 = (0, some GoError.ErrNotExist) :=
  ⟨{ s3client := testStore.client, cfg := testConfig,
      migrations := (loadLoop NewMigrations testListing).1 },
    rfl, Or.inl (by decide), by decide, by decide⟩

/-- C4. For a driver built by `WithInstance`, `First` returns the smallest
version present in the catalog (with an up half, a down half or both), and it
returns `os.ErrNotExist` iff no listed key parsed as a migration. -/
theorem First_smallest_present (s3client : S3er) (cfg : Config) (keys : List GoString)
    (hlist : s3client.ListObjectsV2
      { Bucket := cfg.Bucket, Prefix := cfg.Prefix, Delimiter := "/".toList } = .ok keys)
    (d : s3Driver) (hd : WithInstance s3client cfg = (some d, none)) :
    ((d.First).2 = none ∨ d.First = (0, some GoError.ErrNotExist)) ∧
    ((d.First).2 = none →
      d.present (d.First).1 ∧ ∀ w, d.present w → (d.First).1 ≤ w) ∧
    ((d.First).2 = some GoError.ErrNotExist ↔
      ∀ k ∈ keys, DefaultParse (pathSplit k).2 = none) ∧
    ((d.First).2 = some GoError.ErrNotExist ↔ ∀ w, ¬ d.present w) := by
  obtain ⟨hr, _, _⟩ := WithInstance_represents s3client cfg keys hlist d hd
  have hpres : ∀ w, d.present w ↔ w ∈ d.migrations.index := fun w => hr.present_iff w
  rcases Migrations.First_spec d.migrations hr.index_sorted with ⟨hnil, hF⟩ | ⟨u, hF, hmem, hmin⟩
  · have hN : d.First = (0, some GoError.ErrNotExist) := by simp [s3Driver.First, hF]
    rw [hN]
    refine ⟨Or.inr rfl, (fun h => by cases h), ?_, ?_⟩
    · constructor
      · intro _ k hk
        cases hp : DefaultParse (pathSplit k).2 with
        | none => rfl
        | some m =>
          exfalso
          have : m.Version ∈ d.migrations.index := (hr.index_iff _).2 ⟨k, hk, m, hp, rfl⟩
          rw [hnil] at this
          cases this
      · intro _
        rfl
    · constructor
      · intro _ w hw
        have := (hpres w).1 hw
        rw [hnil] at this
        cases this
      · intro _
        rfl
  · have hN : d.First = (u, none) := by simp [s3Driver.First, hF]
    rw [hN]
    refine ⟨Or.inl rfl, fun _ => ⟨(hpres u).2 hmem, fun w hw => hmin w ((hpres w).1 hw)⟩, ?_, ?_⟩
    · constructor
      · intro h
        cases h
      · intro h
        exfalso
        obtain ⟨k, hk, m, hp, _⟩ := (hr.index_iff u).1 hmem
        rw [h k hk] at hp
        cases hp
    · constructor
      · intro h
        cases h
      · intro h
        exact absurd ((hpres u).2 hmem) (h u)

/-- C4 on the store of `TestAWSS3Source`: `First` is 1. -/
theorem First_smallest_present_witness :
    ∃ d, WithInstance testStore.client testConfig = (some d, none) ∧ d.First = (1, none) ∧
      (((d.First).2 = none ∨ d.First = (0, some GoError.ErrNotExist)) ∧
      ((d.First).2 = none →
        d.present (d.First).1 ∧ ∀ w, d.present w → (d.First).1 ≤ w) ∧
      ((d.First).2 = some GoError.ErrNotExist ↔
        ∀ k ∈ testListing, DefaultParse (pathSplit k).2 = none) ∧
      ((d.First).2 = some GoError.ErrNotExist ↔ ∀ w, ¬ d.present w)) :=
  ⟨{ s3client := testStore.client, cfg := testConfig,
      migrations := (loadLoop NewMigrations testListing).1 },
    rfl, by decide,
    First_smallest_present testStore.client testConfig testListing rfl _ rfl⟩

theorem Migrations.Prev_spec (i : Migrations) (hs : i.index.Sorted (· < ·)) (v : Nat)
    (hv : v ∈ i.index) :
    (∃ u, i.Prev v = (u, true) ∧ u ∈ i.index ∧ u < v ∧ ∀ w ∈ i.index, w < v → w ≤ u) ∨
      (i.Prev v = (0, false) ∧ ∀ w ∈ i.index, v ≤ w) := by
  obtain ⟨p, hp, hpv⟩ := (mem_iff_getD _ _).1 hv
  subst hpv
  rw [Migrations.Prev_of_mem i hs p hp]
  by_cases h : 1 ≤ p
  · left
    refine ⟨i.index.getD (p - 1) 0, by simp only [h, if_true], ?_, ?_, ?_⟩
    · exact (mem_iff_getD _ _).2 ⟨p - 1, by omega, rfl⟩
    · exact sorted_getD_lt hs (by omega) hp
    · intro w hw hlt
      obtain ⟨q, hq, hqw⟩ := (mem_iff_getD _ _).1 hw
      subst hqw
      have hpq : q < p := by
        by_contra hc
        have := sorted_getD_le hs (Nat.le_of_not_lt hc) hq
        omega
      exact sorted_getD_le hs (by omega) (by omega)
  · right
    refine ⟨by simp only [h, if_false], ?_⟩
    intro w hw
    obtain ⟨q, hq, hqw⟩ := (mem_iff_getD _ _).1 hw
    subst hqw
    exact sorted_getD_le hs (by omega) hq

/-- For a driver built by `WithInstance` and a version `v` present in the
catalog, `Prev(v)` returns the largest present version strictly smaller than
`v`, and `os.ErrNotExist` exactly when no present version is smaller; for a
version that is not present it returns `os.ErrNotExist`. -/
theorem Prev_of_present_or_absent (s3client : S3er) (cfg : Config) (keys : List GoString)
    (hlist : s3client.ListObjectsV2
      { Bucket := cfg.Bucket, Prefix := cfg.Prefix, Delimiter := "/".toList } = .ok keys)
    (d : s3Driver) (hd : WithInstance s3client cfg = (some d, none)) (v : Nat) :
    (d.present v →
      ((d.Prev v).2 = none ∨ d.Prev v = (0, some GoError.ErrNotExist)) ∧
      ((d.Prev v).2 = none →
        d.present (d.Prev v).1 ∧ (d.Prev v).1 < v ∧
          ∀ w, d.present w → w < v → w ≤ (d.Prev v).1) ∧
      (d.Prev v = (0, some GoError.ErrNotExist) ↔ ∀ w, d.present w → v ≤ w)) ∧
    (¬ d.present v → d.Prev v = (0, some GoError.ErrNotExist)) := by
  obtain ⟨hr, _, _⟩ := WithInstance_represents s3client cfg keys hlist d hd
  have hpres : ∀ w, d.present w ↔ w ∈ d.migrations.index := fun w => hr.present_iff w
  constructor
  · intro hv
    rcases Migrations.Prev_spec d.migrations hr.index_sorted v ((hpres v).1 hv) with
      ⟨u, hu, hmem, hlt, hmax⟩ | ⟨hnone, hmin⟩
    · have hN : d.Prev v = (u, none) := by simp [s3Driver.Prev, hu]
      rw [hN]
      refine ⟨Or.inl rfl, fun _ => ⟨(hpres u).2 hmem, hlt, fun w hw => hmax w ((hpres w).1 hw)⟩, ?_⟩
      constructor
      · intro h
        cases h
      · intro h
        have := h u ((hpres u).2 hmem)
        omega
    · have hN : d.Prev v = (0, some GoError.ErrNotExist) := by simp [s3Driver.Prev, hnone]
      rw [hN]
      refine ⟨Or.inr rfl, (fun h => by cases h), ?_⟩
      constructor
      · intro _ w hw
        exact hmin w ((hpres w).1 hw)
      · intro _
        rfl
  · intro hv
    have : v ∉ d.migrations.index := fun h => hv ((hpres v).2 h)
    simp [s3Driver.Prev, Migrations.Prev_of_not_mem _ _ this]

/-- `Prev` on the store of `TestAWSS3Source`: `Prev(3) = 1`, and `Prev(1)` and
`Prev(2)` do not exist. -/
theorem Prev_of_present_or_absent_witness :
    ∃ d, WithInstance testStore.client testConfig = (some d, none) ∧
      d.Prev 3 = (1, none) ∧ d.Prev 1 = (0, some GoError.ErrNotExist) ∧
      d.Prev 2 = (0, some GoError.ErrNotExist) ∧
      (¬ d.present 2 → d.Prev 2 = (0, some GoError.ErrNotExist)) :=
  ⟨{ s3client := testStore.client, cfg := testConfig,
      migrations := (loadLoop NewMigrations testListing).1 },
    rfl, by decide, by decide, by decide,
    (Prev_of_present_or_absent testStore.client testConfig testListing rfl _ rfl 2).2⟩

/-- C5. For a driver built by `WithInstance` and a version `v`: when the
catalog holds no up half for `v` (equivalently, no listed key parses to
(`v`, up)), `ReadUp(v)` returns `(nil, "", os.ErrNotExist)` and makes no
`GetObject` call; likewise for `ReadDown` and the down half. A version with
only an up half has `ReadUp` make one `GetObject` call on the bucket while
`ReadDown` reports `os.ErrNotExist` without a call. -/
theorem Read_missing_half (s3client : S3er) (cfg : Config) (keys : List GoString)
    (hlist : s3client.ListObjectsV2
      { Bucket := cfg.Bucket, Prefix := cfg.Prefix, Delimiter := "/".toList } = .ok keys)
    (d : s3Driver) (hd : WithInstance s3client cfg = (some d, none)) (v : Nat) :
    (d.migrations.Up v = none ↔
      ∀ k ∈ keys, ∀ m, DefaultParse (pathSplit k).2 = some m →
        ¬ (m.Version = v ∧ m.Direction = Direction.Up)) ∧
    (d.migrations.Down v = none ↔
      ∀ k ∈ keys, ∀ m, DefaultParse (pathSplit k).2 = some m →
        ¬ (m.Version = v ∧ m.Direction = Direction.Down)) ∧
    (d.migrations.Up v = none → d.ReadUp v = ((none, [], some GoError.ErrNotExist), [])) ∧
    (d.migrations.Down v = none → d.ReadDown v = ((none, [], some GoError.ErrNotExist), [])) ∧
    ((d.migrations.Up v).isSome = true → d.migrations.Down v = none →
      (∃ key, (d.ReadUp v).2 = [{ Bucket := cfg.Bucket, Key := key }]) ∧
        d.ReadDown v = ((none, [], some GoError.ErrNotExist), [])) := by
  obtain ⟨hr, hcfg, _⟩ := WithInstance_represents s3client cfg keys hlist d hd
  have hup : d.migrations.Up v = none → d.ReadUp v = ((none, [], some GoError.ErrNotExist), []) := by
    intro h
    simp [s3Driver.ReadUp, h]
  have hdown : d.migrations.Down v = none →
      d.ReadDown v = ((none, [], some GoError.ErrNotExist), []) := by
    intro h
    simp [s3Driver.ReadDown, h]
  refine ⟨?_, ?_, hup, hdown, ?_⟩
  · constructor
    · intro h k hk m hp hvd
      have := (hr.up_iff v m).2 ⟨k, hk, hp, hvd.1, hvd.2⟩
      rw [h] at this
      cases this
    · intro h
      cases hu : d.migrations.Up v with
      | none => rfl
      | some m =>
        exfalso
        obtain ⟨k, hk, hp, hv, hdir⟩ := (hr.up_iff v m).1 hu
        exact h k hk m hp ⟨hv, hdir⟩
  · constructor
    · intro h k hk m hp hvd
      have := (hr.down_iff v m).2 ⟨k, hk, hp, hvd.1, hvd.2⟩
      rw [h] at this
      cases this
    · intro h
      cases hu : d.migrations.Down v with
      | none => rfl
      | some m =>
        exfalso
        obtain ⟨k, hk, hp, hv, hdir⟩ := (hr.down_iff v m).1 hu
        exact h k hk m hp ⟨hv, hdir⟩
  · intro hsome hnone
    refine ⟨?_, hdown hnone⟩
    obtain ⟨m, hm⟩ := Option.isSome_iff_exists.1 hsome
    refine ⟨pathJoin cfg.Prefix m.Raw, ?_⟩
    simp only [s3Driver.ReadUp, hm, s3Driver.open, hcfg]
    cases d.s3client.GetObject { Bucket := cfg.Bucket, Key := pathJoin cfg.Prefix m.Raw } <;> rfl

/-- C5 on the store of `TestAWSS3Source`: version 3 has only an up half, so
`ReadUp(3)` calls `GetObject` once and `ReadDown(3)` is `os.ErrNotExist`
without a call; version 2 is absent and `ReadUp(2)` makes no call. -/
theorem Read_missing_half_witness :
    ∃ d, WithInstance testStore.client testConfig = (some d, none) ∧
      (d.migrations.Up 3).isSome = true ∧ d.migrations.Down 3 = none ∧
      ((∃ key, (d.ReadUp 3).2 = [{ Bucket := testConfig.Bucket, Key := key }]) ∧
        d.ReadDown 3 = ((none, [], some GoError.ErrNotExist), [])) ∧
      d.migrations.Up 2 = none ∧
      d.ReadUp 2 = ((none, [], some GoError.ErrNotExist), []) :=
  ⟨{ s3client := testStore.client, cfg := testConfig,
      migrations := (loadLoop NewMigrations testListing).1 },
    rfl, by decide, by decide,
    (Read_missing_half testStore.client testConfig testListing rfl _ rfl 3).2.2.2.2
      (by decide) (by decide),
    by decide,
    (Read_missing_half testStore.client testConfig testListing rfl _ rfl 2).2.2.1 (by decide)⟩

theorem sorted_lt_ext {l₁ l₂ : List Nat} (h₁ : l₁.Sorted (· < ·)) (h₂ : l₂.Sorted (· < ·))
    (h : ∀ v, v ∈ l₁ ↔ v ∈ l₂) : l₁ = l₂ := by
  have hp : l₁.Perm l₂ := (List.perm_ext_iff_of_nodup h₁.nodup h₂.nodup).2 h
  exact List.eq_of_perm_of_sorted hp h₁.le_of_lt h₂.le_of_lt

theorem Represents.perm_index {i₁ i₂ : Migrations} {ms₁ ms₂ : List Migration}
    (h₁ : Represents i₁ ms₁) (h₂ : Represents i₂ ms₂) (hp : ms₁.Perm ms₂) :
    i₁.index = i₂.index := by
  apply sorted_lt_ext h₁.index_sorted h₂.index_sorted
  intro v
  rw [h₁.mem_index, h₂.mem_index]
  constructor
  · rintro ⟨m, hm, hv⟩
    exact ⟨m, hp.mem_iff.1 hm, hv⟩
  · rintro ⟨m, hm, hv⟩
    exact ⟨m, hp.mem_iff.2 hm, hv⟩

theorem Represents.perm_lookup {i₁ i₂ : Migrations} {ms₁ ms₂ : List Migration}
    (h₁ : Represents i₁ ms₁) (h₂ : Represents i₂ ms₂) (hp : ms₁.Perm ms₂) (v : Nat)
    (d : Direction) : i₁.lookup v d = i₂.lookup v d := by
  apply Option.ext
  intro m
  simp only [Option.mem_def]
  rw [h₁.lookup_iff, h₂.lookup_iff, hp.mem_iff]

theorem Migrations.First_congr (i₁ i₂ : Migrations) (h : i₁.index = i₂.index) :
    i₁.First = i₂.First := by
  unfold Migrations.First
  rw [h]

theorem Migrations.findPos_congr (i₁ i₂ : Migrations) (h : i₁.index = i₂.index) (v : Nat) :
    i₁.findPos v = i₂.findPos v := by
  unfold Migrations.findPos
  rw [h]

theorem Migrations.Next_congr (i₁ i₂ : Migrations) (h : i₁.index = i₂.index) (v : Nat) :
    i₁.Next v = i₂.Next v := by
  unfold Migrations.Next
  rw [Migrations.findPos_congr i₁ i₂ h, h]

theorem Migrations.Prev_congr (i₁ i₂ : Migrations) (h : i₁.index = i₂.index) (v : Nat) :
    i₁.Prev v = i₂.Prev v := by
  unfold Migrations.Prev
  rw [Migrations.findPos_congr i₁ i₂ h, h]

/-- C8. Two listings that are permutations of each other: `loadMigrations`
returns nil on both or an error on both, and when it returns nil the two
drivers agree on `First`, on `Prev(v)` and `Next(v)` and on the up and down
halves of `v` (presence and raw file name included) for every version `v`. -/
theorem loadMigrations_listing_order (c₁ c₂ : S3er) (cfg : Config) (keys₁ keys₂ : List GoString)
    (h₁ : c₁.ListObjectsV2
      { Bucket := cfg.Bucket, Prefix := cfg.Prefix, Delimiter := "/".toList } = .ok keys₁)
    (h₂ : c₂.ListObjectsV2
      { Bucket := cfg.Bucket, Prefix := cfg.Prefix, Delimiter := "/".toList } = .ok keys₂)
    (hperm : keys₁.Perm keys₂) (s₁ s₂ : s3Driver) (e₁ e₂ : Option GoError)
    (hs₁ : s3Driver.loadMigrations { s3client := c₁, cfg := cfg, migrations := NewMigrations } =
      (s₁, e₁))
    (hs₂ : s3Driver.loadMigrations { s3client := c₂, cfg := cfg, migrations := NewMigrations } =
      (s₂, e₂)) :
    (e₁ = none ↔ e₂ = none) ∧
    (e₁ = none →
      s₁.First = s₂.First ∧
      ∀ v, s₁.Prev v = s₂.Prev v ∧ s₁.Next v = s₂.Next v ∧
        s₁.migrations.Up v = s₂.migrations.Up v ∧
        s₁.migrations.Down v = s₂.migrations.Down v ∧
        (s₁.migrations.Up v).map Migration.Raw = (s₂.migrations.Up v).map Migration.Raw ∧
        (s₁.migrations.Down v).map Migration.Raw = (s₂.migrations.Down v).map Migration.Raw) := by
  rw [loadMigrations_eq _ keys₁ h₁] at hs₁
  rw [loadMigrations_eq _ keys₂ h₂] at hs₂
  simp only [Prod.mk.injEq] at hs₁ hs₂
  obtain ⟨hs₁, he₁⟩ := hs₁
  obtain ⟨hs₂, he₂⟩ := hs₂
  subst hs₁ he₁ hs₂ he₂
  have hnd : (keys₁.filterMap slotOf).Nodup ↔ (keys₂.filterMap slotOf).Nodup :=
    (hperm.filterMap slotOf).nodup_iff
  have hiff : (loadLoop NewMigrations keys₁).2 = none ↔ (loadLoop NewMigrations keys₂).2 = none := by
    rw [loadLoop_new_ok_iff, loadLoop_new_ok_iff, hnd]
  refine ⟨hiff, ?_⟩
  intro hok
  have hn₁ := (loadLoop_new_ok_iff keys₁).1 hok
  have hn₂ := hnd.1 hn₁
  have hr₁ := loadLoop_new_represents keys₁ hn₁
  have hr₂ := loadLoop_new_represents keys₂ hn₂
  have hpp : (parsedOf keys₁).Perm (parsedOf keys₂) := hperm.filterMap parseKey
  have hidx := hr₁.perm_index hr₂ hpp
  have hup : ∀ v, (loadLoop NewMigrations keys₁).1.Up v = (loadLoop NewMigrations keys₂).1.Up v :=
    fun v => hr₁.perm_lookup hr₂ hpp v Direction.Up
  have hdown : ∀ v,
      (loadLoop NewMigrations keys₁).1.Down v = (loadLoop NewMigrations keys₂).1.Down v :=
    fun v => hr₁.perm_lookup hr₂ hpp v Direction.Down
  refine ⟨?_, ?_⟩
  · simp only [s3Driver.First, Migrations.First_congr _ _ hidx]
  · intro v
    refine ⟨?_, ?_, hup v, hdown v, ?_, ?_⟩
    · simp only [s3Driver.Prev, Migrations.Prev_congr _ _ hidx]
    · simp only [s3Driver.Next, Migrations.Next_congr _ _ hidx]
    · simp only [hup v]
    · simp only [hdown v]

/-- C8 on the listing of `TestAWSS3Source` and the same listing reversed: both
load without error and the two drivers agree on `First`, `Prev`, `Next` and on
the up and down halves of every version. -/
theorem loadMigrations_listing_order_witness :
    testListing.Perm testListing.reverse ∧
    (forwardDriver.loadMigrations.2 = none ↔ reversedDriver.loadMigrations.2 = none) ∧
    (forwardDriver.loadMigrations.2 = none →
      forwardDriver.loadMigrations.1.First = reversedDriver.loadMigrations.1.First ∧
      ∀ v, forwardDriver.loadMigrations.1.Prev v = reversedDriver.loadMigrations.1.Prev v ∧
        forwardDriver.loadMigrations.1.Next v = reversedDriver.loadMigrations.1.Next v ∧
        forwardDriver.loadMigrations.1.migrations.Up v =
          reversedDriver.loadMigrations.1.migrations.Up v ∧
        forwardDriver.loadMigrations.1.migrations.Down v =
          reversedDriver.loadMigrations.1.migrations.Down v ∧
        (forwardDriver.loadMigrations.1.migrations.Up v).map Migration.Raw =
          (reversedDriver.loadMigrations.1.migrations.Up v).map Migration.Raw ∧
        (forwardDriver.loadMigrations.1.migrations.Down v).map Migration.Raw =
          (reversedDriver.loadMigrations.1.migrations.Down v).map Migration.Raw) ∧
    forwardDriver.loadMigrations.2 = none :=
  ⟨(List.reverse_perm testListing).symm,
    (loadMigrations_listing_order (listingClient testListing)
      (listingClient testListing.reverse) testConfig testListing testListing.reverse rfl rfl
      (List.reverse_perm testListing).symm forwardDriver.loadMigrations.1
      reversedDriver.loadMigrations.1 forwardDriver.loadMigrations.2
      reversedDriver.loadMigrations.2 rfl rfl).1,
    (loadMigrations_listing_order (listingClient testListing)
      (listingClient testListing.reverse) testConfig testListing testListing.reverse rfl rfl
      (List.reverse_perm testListing).symm forwardDriver.loadMigrations.1
      reversedDriver.loadMigrations.1 forwardDriver.loadMigrations.2
      reversedDriver.loadMigrations.2 rfl rfl).2,
    by decide⟩

/-! ## `parseURI` -/

theorem dropWhile_slash_decomp (l : GoString) :
    ∃ a, l = List.replicate a '/' ++ l.dropWhile (fun c => ['/'].contains c) ∧
      (l.dropWhile (fun c => ['/'].contains c)).head? ≠ some '/' := by
  induction l with
  | nil => exact ⟨0, by simp⟩
  | cons c cs ih =>
    by_cases hc : c = '/'
    · subst hc
      obtain ⟨a, h1, h2⟩ := ih
      refine ⟨a + 1, ?_, ?_⟩
      · simp only [List.replicate_succ, List.cons_append, List.dropWhile_cons, List.contains_cons,
          beq_self_eq_true, Bool.true_or, if_true]
        exact congrArg _ h1
      · simpa using h2
    · refine ⟨0, ?_, ?_⟩
      · simp [List.dropWhile_cons, hc]
      · simp [List.dropWhile_cons, hc]

theorem getLast?_dropWhile_slash (l : GoString) (h : l.getLast? ≠ some '/') :
    (l.dropWhile (fun c => ['/'].contains c)).getLast? ≠ some '/' := by
  obtain ⟨a, h1, _⟩ := dropWhile_slash_decomp l
  intro hc
  apply h
  rw [h1, List.getLast?_append, hc]
  rfl

/-- What `strings.Trim(s, "/")` returns: `s` is that string between a run of
slashes and a run of slashes, and the string neither starts nor ends with a
slash. -/
theorem stringsTrim_slash_decomp (s : GoString) :
    ∃ a b, s = List.replicate a '/' ++ stringsTrim s ['/'] ++ List.replicate b '/' ∧
      (stringsTrim s ['/']).head? ≠ some '/' ∧ (stringsTrim s ['/']).getLast? ≠ some '/' := by
  obtain ⟨b, hb1, hb2⟩ := dropWhile_slash_decomp s.reverse
  have hr : s = stringsTrimRight s ['/'] ++ List.replicate b '/' := by
    have := congrArg List.reverse hb1
    simpa [stringsTrimRight] using this
  have hlast : (stringsTrimRight s ['/']).getLast? ≠ some '/' := by
    simpa [stringsTrimRight] using hb2
  obtain ⟨a, ha1, ha2⟩ := dropWhile_slash_decomp (stringsTrimRight s ['/'])
  refine ⟨a, b, ?_, ha2, getLast?_dropWhile_slash _ hlast⟩
  unfold stringsTrim stringsTrimLeft
  rw [← ha1]
  exact hr

theorem stringsTrim_append_slash (s : GoString) :
    stringsTrim (s ++ ['/']) ['/'] = stringsTrim s ['/'] := by
  simp [stringsTrim, stringsTrimRight]

theorem stringsTrimRight_append_slashes (s : GoString) (b : Nat) :
    stringsTrimRight (s ++ List.replicate b '/') ['/'] = stringsTrimRight s ['/'] := by
  induction b with
  | zero => simp
  | succ b ih =>
    rw [List.replicate_succ', ← List.append_assoc]
    rw [← ih]
    simp [stringsTrimRight]

theorem stringsTrimRight_of_last (s : GoString) (h : s.getLast? ≠ some '/') :
    stringsTrimRight s ['/'] = s := by
  by_cases hs : s = []
  · subst hs
    rfl
  · obtain ⟨ys, c, rfl⟩ : ∃ ys c, s = ys ++ [c] :=
      ⟨s.dropLast, s.getLast hs, (List.dropLast_append_getLast hs).symm⟩
    have hc : c ≠ '/' := by
      intro hc
      apply h
      simp [hc]
    simp [stringsTrimRight, List.dropWhile_cons, hc]

theorem stringsTrimLeft_slashes_append (a : Nat) (t : GoString) :
    stringsTrimLeft (List.replicate a '/' ++ t) ['/'] = stringsTrimLeft t ['/'] := by
  induction a with
  | zero => simp
  | succ a ih =>
    unfold stringsTrimLeft at ih ⊢
    simp [List.replicate_succ, List.dropWhile_cons]

theorem stringsTrimLeft_of_head (t : GoString) (h : t.head? ≠ some '/') :
    stringsTrimLeft t ['/'] = t := by
  cases t with
  | nil => rfl
  | cons c cs =>
    have hc : c ≠ '/' := by
      intro hc
      apply h
      simp [hc]
    simp [stringsTrimLeft, List.dropWhile_cons, hc]

/-- `strings.Trim(s, "/")` of a string written as slashes, a string that neither
starts nor ends with a slash, slashes: the string in the middle. -/
theorem stringsTrim_of_decomp (a b : Nat) (t : GoString) (h1 : t.head? ≠ some '/')
    (h2 : t.getLast? ≠ some '/') :
    stringsTrim (List.replicate a '/' ++ t ++ List.replicate b '/') ['/'] = t := by
  unfold stringsTrim
  rw [stringsTrimRight_append_slashes]
  by_cases ht : t = []
  · subst ht
    have : stringsTrimRight (List.replicate a '/' ++ []) ['/'] = [] := by
      simp [stringsTrimRight]
    rw [this]
    rfl
  · have hl : (List.replicate a '/' ++ t).getLast? ≠ some '/' := by
      rw [List.getLast?_append]
      cases hg : t.getLast? with
      | none => simp [List.getLast?_eq_none_iff] at hg; exact absurd hg ht
      | some c =>
        rw [hg] at h2
        simpa using h2
    rw [stringsTrimRight_of_last _ hl, stringsTrimLeft_slashes_append,
      stringsTrimLeft_of_head _ h1]

theorem parseURI_ok (urlParse : GoString → Except GoError URL) (uri : GoString) (u : URL)
    (hu : urlParse uri = .ok u) :
    parseURI urlParse uri = (some { Bucket := u.Host, Prefix := prefixOfPath u.Path }, none) := by
  unfold parseURI prefixOfPath
  rw [hu]
  by_cases ht : stringsTrim u.Path ['/'] = []
  · simp [ht]
  · simp [ht]

theorem parseURI_accepts (urlParse : GoString → Except GoError URL) (uri : GoString)
    (cfg : Config) (h : parseURI urlParse uri = (some cfg, none)) :
    ∃ u, urlParse uri = .ok u ∧ cfg = { Bucket := u.Host, Prefix := prefixOfPath u.Path } := by
  cases hu : urlParse uri with
  | error err =>
    simp [parseURI, hu] at h
  | ok u =>
    rw [parseURI_ok urlParse uri u hu] at h
    simp only [Prod.mk.injEq, Option.some.injEq, and_true] at h
    exact ⟨u, rfl, h.symm⟩

theorem prefixOfPath_append_slash (path : GoString) :
    prefixOfPath (path ++ ['/']) = prefixOfPath path := by
  unfold prefixOfPath
  rw [stringsTrim_append_slash]

/-- C9. When `parseURI` accepts a URI, the bucket is the host of the URI and
the prefix is the path with all leading and trailing slashes stripped and one
slash appended when what is left is not empty; so the prefix is empty, or does
not start with a slash and ends with one slash and not two; and a URI whose
path has one more trailing slash gives the same configuration. -/
theorem parseURI_config (urlParse : GoString → Except GoError URL) (uri : GoString)
    (cfg : Config) (h : parseURI urlParse uri = (some cfg, none)) :
    ∃ u, urlParse uri = .ok u ∧ cfg.Bucket = u.Host ∧
      (∃ a b t, u.Path = List.replicate a '/' ++ t ++ List.replicate b '/' ∧
        t.head? ≠ some '/' ∧ t.getLast? ≠ some '/') ∧
      (∀ a b t, u.Path = List.replicate a '/' ++ t ++ List.replicate b '/' →
        t.head? ≠ some '/' → t.getLast? ≠ some '/' →
        cfg.Prefix = if t = [] then [] else t ++ ['/']) ∧
      (cfg.Prefix = [] ∨
        (cfg.Prefix.head? ≠ some '/' ∧ cfg.Prefix.getLast? = some '/' ∧
          cfg.Prefix.dropLast ≠ [] ∧ cfg.Prefix.dropLast.getLast? ≠ some '/')) ∧
      (∀ (urlParse' : GoString → Except GoError URL) (uri' : GoString) (u' : URL),
        urlParse' uri' = .ok u' → u'.Host = u.Host →
        (u'.Path = u.Path ++ ['/'] ∨ u.Path = u'.Path ++ ['/']) →
        parseURI urlParse' uri' = (some cfg, none)) := by
  obtain ⟨u, hu, hcfg⟩ := parseURI_accepts urlParse uri cfg h
  subst hcfg
  obtain ⟨a, b, hdec, hh, hl⟩ := stringsTrim_slash_decomp u.Path
  refine ⟨u, hu, rfl, ⟨a, b, _, hdec, hh, hl⟩, ?_, ?_, ?_⟩
  · intro a' b' t hp h1 h2
    simp only [prefixOfPath]
    rw [hp, stringsTrim_of_decomp a' b' t h1 h2]
  · simp only [prefixOfPath]
    by_cases ht : stringsTrim u.Path ['/'] = []
    · left
      simp [ht]
    · right
      simp only [ht, if_false]
      refine ⟨?_, by simp, by simpa using ht, by simpa using hl⟩
      cases hs : stringsTrim u.Path ['/'] with
      | nil => exact absurd hs ht
      | cons c cs =>
        rw [hs] at hh
        simpa using hh
  · intro urlParse' uri' u' hu' hhost hpath
    rw [parseURI_ok urlParse' uri' u' hu', hhost]
    rcases hpath with hp | hp
    · rw [hp, prefixOfPath_append_slash]
    · rw [hp, prefixOfPath_append_slash]

/-- C9 on the addresses of `TestParseURI`: `s3://migration-bucket/production`
and `s3://migration-bucket/production/` both give the bucket
`migration-bucket` and the prefix `production/`. -/
theorem parseURI_config_witness :
    parseURI testUrlParse "s3://migration-bucket/production".toList =
      (some { Bucket := "migration-bucket".toList, Prefix := "production/".toList }, none) ∧
    parseURI testUrlParse "s3://migration-bucket/production/".toList =
      (some { Bucket := "migration-bucket".toList, Prefix := "production/".toList }, none) ∧
    ∃ u, testUrlParse "s3://migration-bucket/production".toList = .ok u ∧
      "migration-bucket".toList = u.Host ∧
      (∃ a b t, u.Path = List.replicate a '/' ++ t ++ List.replicate b '/' ∧
        t.head? ≠ some '/' ∧ t.getLast? ≠ some '/') ∧
      (∀ a b t, u.Path = List.replicate a '/' ++ t ++ List.replicate b '/' →
        t.head? ≠ some '/' → t.getLast? ≠ some '/' →
        "production/".toList = if t = [] then [] else t ++ ['/']) ∧
      ("production/".toList = [] ∨
        ("production/".toList.head? ≠ some '/' ∧ "production/".toList.getLast? = some '/' ∧
          "production/".toList.dropLast ≠ [] ∧
          "production/".toList.dropLast.getLast? ≠ some '/')) ∧
      (∀ (urlParse' : GoString → Except GoError URL) (uri' : GoString) (u' : URL),
        urlParse' uri' = .ok u' → u'.Host = u.Host →
        (u'.Path = u.Path ++ ['/'] ∨ u.Path = u'.Path ++ ['/']) →
        parseURI urlParse' uri' =
          (some { Bucket := "migration-bucket".toList, Prefix := "production/".toList }, none)) :=
  ⟨by decide, by decide,
    parseURI_config testUrlParse "s3://migration-bucket/production".toList
      { Bucket := "migration-bucket".toList, Prefix := "production/".toList } (by decide)⟩

/-- C10, as amended. When `parseURI` accepts an address, the prefix ends in a
slash iff the path of the address holds a character other than a slash; in
particular a prefix that ends in a slash comes from a non-empty path. -/
theorem parseURI_trailing_separator (urlParse : GoString → Except GoError URL)
    (uri : GoString) (cfg : Config) (u : URL) (h : parseURI urlParse uri = (some cfg, none))
    (hu : urlParse uri = .ok u) :
    (cfg.Prefix.getLast? = some '/' ↔ ∃ c ∈ u.Path, c ≠ '/') ∧
      (cfg.Prefix.getLast? = some '/' → u.Path ≠ []) := by
  rw [parseURI_ok urlParse uri u hu] at h
  simp only [Prod.mk.injEq, Option.some.injEq, and_true] at h
  subst h
  obtain ⟨a, b, hdec, hh, hl⟩ := stringsTrim_slash_decomp u.Path
  have hiff : (prefixOfPath u.Path).getLast? = some '/' ↔ ∃ c ∈ u.Path, c ≠ '/' := by
    simp only [prefixOfPath]
    by_cases ht : stringsTrim u.Path ['/'] = []
    · simp only [ht, if_true, List.getLast?_nil]
      constructor
      · intro hc
        cases hc
      · rintro ⟨c, hc, hne⟩
        exfalso
        rw [hdec, ht] at hc
        simp only [List.append_nil, List.mem_append, List.mem_replicate] at hc
        rcases hc with hc | hc
        · exact hne hc.2
        · exact hne hc.2
    · simp only [ht, if_false, List.getLast?_concat, true_iff]
      cases hs : stringsTrim u.Path ['/'] with
      | nil => exact absurd hs ht
      | cons c cs =>
        rw [hs] at hh
        refine ⟨c, ?_, by simpa using hh⟩
        rw [hdec, hs]
        simp
  refine ⟨hiff, ?_⟩
  intro hp hnil
  obtain ⟨c, hc, _⟩ := hiff.1 hp
  rw [hnil] at hc
  cases hc

/-- C10, as amended, on the address `s3://migration-bucket/production`. -/
theorem parseURI_trailing_separator_witness :
    ("production/".toList.getLast? = some '/' ↔ ∃ c ∈ "/production".toList, c ≠ '/') ∧
      ("production/".toList.getLast? = some '/' → "/production".toList ≠ []) :=
  parseURI_trailing_separator testUrlParse "s3://migration-bucket/production".toList
    { Bucket := "migration-bucket".toList, Prefix := "production/".toList }
    { Host := "migration-bucket".toList, Path := "/production".toList } (by decide) rfl

/-- C10 as stated fails: for `s3://migration-bucket/` (the case "without
prefix, trailing slash" of `TestParseURI`) the path is `/`, which is not empty,
and the prefix is empty, so it does not end in a slash. -/
theorem parseURI_slash_path_counterexample :
    testUrlParse "s3://migration-bucket/".toList =
      .ok { Host := "migration-bucket".toList, Path := "/".toList } ∧
    "/".toList ≠ [] ∧
    parseURI testUrlParse "s3://migration-bucket/".toList =
      (some { Bucket := "migration-bucket".toList, Prefix := [] }, none) ∧
    ([] : GoString).getLast? ≠ some '/' :=
  ⟨rfl, by decide, by decide, by decide⟩

/-! ## The object key of a read -/

theorem DefaultParse_raw (raw : GoString) (m : Migration) (h : DefaultParse raw = some m) :
    m.Raw = raw := by
  unfold DefaultParse at h
  cases hr : regexSubmatch raw with
  | none => simp [hr] at h
  | some g =>
    obtain ⟨digits, ident, d, ext⟩ := g
    simp only [hr] at h
    cases hp : parseUint64 digits with
    | none => simp [hp] at h
    | some v =>
      simp only [hp, Option.some.injEq] at h
      rw [← h]

theorem DefaultParse_ne_nil (raw : GoString) (m : Migration) (h : DefaultParse raw = some m) :
    raw ≠ [] := by
  intro hraw
  subst hraw
  simp [DefaultParse, regexSubmatch] at h

theorem pathElements_ne_nil (p : GoString) : pathElements p ≠ [] := by
  cases p with
  | nil => simp [pathElements]
  | cons c cs =>
    unfold pathElements
    split
    · simp
    · split <;> simp

theorem pathElements_append_slash (a b : GoString) :
    pathElements (a ++ '/' :: b) = pathElements a ++ pathElements b := by
  induction a with
  | nil => simp [pathElements]
  | cons c cs ih =>
    by_cases hc : c = '/'
    · simp [pathElements, hc, ih]
    · cases he : pathElements cs with
      | nil => exact absurd he (pathElements_ne_nil cs)
      | cons e es => simp [pathElements, hc, ih, he]

theorem foldl_cleanStep_skip_empty (rooted : Bool) (xs ys : List GoString) (out : List GoString) :
    (xs ++ [] :: ys).foldl (cleanStep rooted) out = (xs ++ ys).foldl (cleanStep rooted) out := by
  simp [List.foldl_append, cleanStep]

/-- Joining a prefix that ends in a slash with a name only cleans their
concatenation. -/
theorem pathJoin_of_slash_terminated (pre name : GoString)
    (hpre : pre = [] ∨ pre.getLast? = some '/') (hname : name ≠ []) :
    pathJoin pre name = pathClean (pre ++ name) := by
  rcases hpre with h | h
  · subst h
    simp [pathJoin, hname]
  · obtain ⟨q, hq⟩ := List.getLast?_eq_some_iff.1 h
    subst hq
    have hne : q ++ ['/'] ≠ [] := by simp
    have h1 : pathJoin (q ++ ['/']) name = pathClean (q ++ '/' :: '/' :: name) := by
      simp [pathJoin, hname]
    rw [h1]
    have h2 : q ++ ['/'] ++ name = q ++ '/' :: name := by simp
    rw [h2]
    have hhead : (q ++ '/' :: '/' :: name).head? = (q ++ '/' :: name).head? := by
      cases q <;> rfl
    unfold pathClean
    have e1 : q ++ '/' :: '/' :: name ≠ [] := by simp
    have e2 : q ++ '/' :: name ≠ [] := by simp
    simp only [e1, e2, if_false, hhead]
    rw [pathElements_append_slash q ('/' :: name), pathElements_append_slash q name]
    have e3 : pathElements ('/' :: name) = [] :: pathElements name := by simp [pathElements]
    rw [e3, foldl_cleanStep_skip_empty]

theorem intercalate_pathElements (p : GoString) :
    List.intercalate ['/'] (pathElements p) = p := by
  induction p with
  | nil => simp [pathElements, List.intercalate]
  | cons c cs ih =>
    by_cases hc : c = '/'
    · subst hc
      cases he : pathElements cs with
      | nil => exact absurd he (pathElements_ne_nil cs)
      | cons e es =>
        rw [he] at ih
        simp only [pathElements, if_true, he]
        rw [← ih]
        simp [List.intercalate, List.intersperse]
    · cases he : pathElements cs with
      | nil => exact absurd he (pathElements_ne_nil cs)
      | cons e es =>
        rw [he] at ih
        simp only [pathElements, hc, if_false, he]
        rw [← ih]
        cases es <;> simp [List.intercalate, List.intersperse]

theorem foldl_cleanStep_clean (rooted : Bool) (es : List GoString)
    (h : ∀ e ∈ es, cleanElement e = true) (out : List GoString) :
    es.foldl (cleanStep rooted) out = es.reverse ++ out := by
  induction es generalizing out with
  | nil => rfl
  | cons e es ih =>
    have he := h e (List.mem_cons_self _ _)
    simp only [cleanElement, decide_eq_true_eq] at he
    have hstep : cleanStep rooted out e = e :: out := by
      simp [cleanStep, he.1, he.2.1, he.2.2]
    rw [List.foldl_cons, hstep, ih (fun x hx => h x (List.mem_cons_of_mem _ hx))]
    simp

/-- A non-empty path all of whose elements are kept by `path.Clean` is a clean
path. -/
theorem pathClean_of_clean_elements (p : GoString)
    (h : ∀ e ∈ pathElements p, cleanElement e = true) : pathClean p = p := by
  have hne : p ≠ [] := by
    intro hp
    subst hp
    have := h [] (by simp [pathElements])
    simp [cleanElement] at this
  have hroot : ¬ (p.head? = some '/') := by
    intro hp
    cases p with
    | nil => exact absurd rfl hne
    | cons c cs =>
      simp only [List.head?_cons, Option.some.injEq] at hp
      subst hp
      have := h [] (by simp [pathElements])
      simp [cleanElement] at this
  unfold pathClean
  simp only [hne, if_false, hroot, decide_False, Bool.false_eq_true]
  rw [foldl_cleanStep_clean _ _ h]
  simp [intercalate_pathElements, hne]

theorem pathSplit_append (k : GoString) : (pathSplit k).1 ++ (pathSplit k).2 = k := by
  unfold pathSplit
  simp only []
  rw [← List.reverse_append, List.takeWhile_append_dropWhile, List.reverse_reverse]

theorem pathSplit_dir (k : GoString) :
    (pathSplit k).1 = [] ∨ (pathSplit k).1.getLast? = some '/' := by
  unfold pathSplit
  simp only [List.getLast?_reverse, List.reverse_eq_nil_iff]
  have h := List.head?_dropWhile_not (fun c => c != '/') k.reverse
  cases hd : (List.dropWhile (fun c => c != '/') k.reverse) with
  | nil => exact Or.inl rfl
  | cons c cs =>
    right
    rw [hd] at h
    simp only [List.head?_cons, bne_eq_false_iff_eq] at h
    simp [h]

/-- For a driver built by `WithInstance` and a listed key that is the prefix
followed by its leaf name and is a clean path (none of its elements is empty,
`.` or `..`): when the leaf name parses to the migration `m`, the raw name of
`m` is the leaf name, and `ReadUp` (for an up half, `ReadDown` for a down half)
makes one `GetObject` call, on the listed key itself, and on success returns
the identifier of `m`. -/
theorem Read_clean_key (s3client : S3er) (cfg : Config) (keys : List GoString)
    (hlist : s3client.ListObjectsV2
      { Bucket := cfg.Bucket, Prefix := cfg.Prefix, Delimiter := "/".toList } = .ok keys)
    (d : s3Driver) (hd : WithInstance s3client cfg = (some d, none))
    (k : GoString) (hk : k ∈ keys) (m : Migration)
    (hm : DefaultParse (pathSplit k).2 = some m)
    (hkeq : k = cfg.Prefix ++ (pathSplit k).2)
    (helems : ∀ e ∈ pathElements k, e ≠ [] ∧ e ≠ ['.'] ∧ e ≠ ['.', '.']) :
    m.Raw = (pathSplit k).2 ∧
    (m.Direction = Direction.Up →
      (d.ReadUp m.Version).2 = [{ Bucket := cfg.Bucket, Key := k }] ∧
      ∀ body, s3client.GetObject { Bucket := cfg.Bucket, Key := k } = .ok body →
        (d.ReadUp m.Version).1 = (some body, m.Identifier, none)) ∧
    (m.Direction = Direction.Down →
      (d.ReadDown m.Version).2 = [{ Bucket := cfg.Bucket, Key := k }] ∧
      ∀ body, s3client.GetObject { Bucket := cfg.Bucket, Key := k } = .ok body →
        (d.ReadDown m.Version).1 = (some body, m.Identifier, none)) := by
  obtain ⟨hr, hcfg, hcl⟩ := WithInstance_represents s3client cfg keys hlist d hd
  have hraw := DefaultParse_raw _ _ hm
  have hne : m.Raw ≠ [] := by
    rw [hraw]
    exact DefaultParse_ne_nil _ _ hm
  have hpre : cfg.Prefix = [] ∨ cfg.Prefix.getLast? = some '/' := by
    have h1 : cfg.Prefix ++ (pathSplit k).2 = (pathSplit k).1 ++ (pathSplit k).2 := by
      rw [← hkeq, pathSplit_append]
    rw [List.append_cancel_right h1]
    exact pathSplit_dir k
  have hclean : pathClean k = k := by
    apply pathClean_of_clean_elements
    intro e he
    simp only [cleanElement, decide_eq_true_eq]
    exact helems e he
  have hkey : pathJoin cfg.Prefix m.Raw = k := by
    rw [pathJoin_of_slash_terminated _ _ hpre hne, hraw, ← hkeq, hclean]
  have hopen : d.open m =
      (match s3client.GetObject { Bucket := cfg.Bucket, Key := k } with
        | .error err => ((none, [], some err), [{ Bucket := cfg.Bucket, Key := k }])
        | .ok body => ((some body, m.Identifier, none), [{ Bucket := cfg.Bucket, Key := k }])) := by
    simp only [s3Driver.open, hcfg, hcl, hkey]
  refine ⟨hraw, ?_, ?_⟩
  · intro hdir
    have hup : d.migrations.Up m.Version = some m := (hr.up_iff _ _).2 ⟨k, hk, hm, rfl, hdir⟩
    have hread : d.ReadUp m.Version = d.open m := by simp [s3Driver.ReadUp, hup]
    rw [hread, hopen]
    constructor
    · cases s3client.GetObject { Bucket := cfg.Bucket, Key := k } <;> rfl
    · intro body hb
      rw [hb]
  · intro hdir
    have hdown : d.migrations.Down m.Version = some m :=
      (hr.down_iff _ _).2 ⟨k, hk, hm, rfl, hdir⟩
    have hread : d.ReadDown m.Version = d.open m := by simp [s3Driver.ReadDown, hdown]
    rw [hread, hopen]
    constructor
    · cases s3client.GetObject { Bucket := cfg.Bucket, Key := k } <;> rfl
    · intro body hb
      rw [hb]

/-- On the store of `TestAWSS3Source`, `ReadUp(3)` asks for
`prod/migrations/3_foobar.up.sql`, the key that was listed, and returns the
content of that object and the identifier `foobar`. -/
theorem Read_clean_key_witness :
    ∃ d, WithInstance testStore.client testConfig = (some d, none) ∧
      d.ReadUp 3 = ((some "3 up".toList, "foobar".toList, none),
        [{ Bucket := "some-bucket".toList, Key := "prod/migrations/3_foobar.up.sql".toList }]) ∧
      (d.ReadUp 3).2 =
        [{ Bucket := testConfig.Bucket, Key := "prod/migrations/3_foobar.up.sql".toList }] :=
  ⟨{ s3client := testStore.client, cfg := testConfig,
      migrations := (loadLoop NewMigrations testListing).1 },
    rfl, by decide,
    ((Read_clean_key testStore.client testConfig testListing rfl _ rfl
      "prod/migrations/3_foobar.up.sql".toList (by decide)
      { Version := 3, Identifier := "foobar".toList, Direction := Direction.Up,
        Raw := "3_foobar.up.sql".toList } (by decide) (by decide) (by decide)).2.1 rfl).1⟩

/-- C6, the code at the failing input. For the path `/a//b` (the path Go's
`url.Parse` gives for `s3://bucket/a//b`) `parseURI` produces the prefix
`a//b/`; the store lists the object `a//b/1_x.up.sql` under it and the
catalog records the raw name `1_x.up.sql`; `ReadUp(1)` then asks `GetObject`
for `a/b/1_x.up.sql`, which is neither the prefix followed by the raw name nor
the key that was listed, and the read fails although the listed object is in
the store. -/
theorem Read_unclean_prefix_misses_listed_key :
    parseURI (fun _ => .ok { Host := "bucket".toList, Path := "/a//b".toList })
        "s3://bucket/a//b".toList =
      (some { Bucket := "bucket".toList, Prefix := "a//b/".toList }, none) ∧
    doubleSlashStore.client.ListObjectsV2
        { Bucket := "bucket".toList, Prefix := "a//b/".toList, Delimiter := "/".toList } =
      .ok ["a//b/1_x.up.sql".toList] ∧
    doubleSlashStore.client.GetObject
        { Bucket := "bucket".toList, Key := "a//b/1_x.up.sql".toList } = .ok "1 up".toList ∧
    ∃ d, WithInstance doubleSlashStore.client
        { Bucket := "bucket".toList, Prefix := "a//b/".toList } = (some d, none) ∧
      (d.migrations.Up 1).map Migration.Raw = some "1_x.up.sql".toList ∧
      (d.ReadUp 1).2 = [{ Bucket := "bucket".toList, Key := "a/b/1_x.up.sql".toList }] ∧
      "a/b/1_x.up.sql".toList ≠ "a//b/".toList ++ "1_x.up.sql".toList ∧
      (d.ReadUp 1).1 = (none, [], some (GoError.New "object not found".toList)) :=
  ⟨by decide, rfl, rfl,
    { s3client := doubleSlashStore.client
      cfg := { Bucket := "bucket".toList, Prefix := "a//b/".toList }
      migrations := (loadLoop NewMigrations ["a//b/1_x.up.sql".toList]).1 },
    rfl, by decide, by decide, by decide, by decide⟩

/-! ## Nested keys -/

theorem filter_map_filter_not (P N : GoString → Bool) (hPN : ∀ k, P k = true → N k = false)
    (objs : List (GoString × GoString)) :
    List.filter P (List.map Prod.fst (List.filter (fun o => !N o.1) objs)) =
      List.filter P (List.map Prod.fst objs) := by
  induction objs with
  | nil => rfl
  | cons o rest ih =>
    cases hn : N o.1 with
    | true =>
      have hP : P o.1 = false := by
        cases hp : P o.1 with
        | false => rfl
        | true =>
          have := hPN _ hp
          rw [hn] at this
          cases this
      simp [List.filter_cons, hn, hP, ih]
    | false =>
      simp [List.filter_cons, hn, ih]

theorem filter_map_filter_nested (pre : GoString) (objs : List (GoString × GoString)) :
    List.filter
        (fun name => stringsHasPrefix name pre &&
          (decide ("/".toList = []) || !stringsContains (stringsRemoveFirst name pre) "/".toList))
        (List.map Prod.fst (List.filter (fun o => !nestedKey pre o.1) objs)) =
      List.filter
        (fun name => stringsHasPrefix name pre &&
          (decide ("/".toList = []) || !stringsContains (stringsRemoveFirst name pre) "/".toList))
        (List.map Prod.fst objs) := by
  apply filter_map_filter_not _ (nestedKey pre)
  intro k hk
  have hd : decide ("/".toList = ([] : List Char)) = false := by decide
  have hs : "/".toList = ['/'] := rfl
  rw [hd, hs] at hk
  simp only [Bool.false_or, Bool.and_eq_true, Bool.not_eq_true'] at hk
  unfold nestedKey
  rw [hk.2]
  simp

theorem fakeS3_listing_withoutNested (s : fakeS3) (cfg : Config) :
    (s.withoutNested cfg.Prefix).ListObjectsV2 (listRequest cfg) =
      s.ListObjectsV2 (listRequest cfg) := by
  unfold fakeS3.ListObjectsV2 fakeS3.withoutNested listRequest
  by_cases hb : cfg.Bucket = s.bucket
  · simp only [hb, ne_eq, not_true_eq_false, if_false]
    congr 1
    exact filter_map_filter_nested cfg.Prefix s.objects
  · simp [hb]

theorem fakeS3_listing_not_nested (s : fakeS3) (cfg : Config) (keys : List GoString)
    (h : s.ListObjectsV2 (listRequest cfg) = .ok keys) :
    ∀ k ∈ keys, nestedKey cfg.Prefix k = false := by
  unfold fakeS3.ListObjectsV2 listRequest at h
  by_cases hb : cfg.Bucket = s.bucket
  · simp only [hb, ne_eq, not_true_eq_false, if_false, Except.ok.injEq] at h
    intro k hk
    rw [← h] at hk
    have hP := (List.mem_filter.1 hk).2
    have hd : decide ("/".toList = ([] : List Char)) = false := by decide
    have hs : "/".toList = ['/'] := rfl
    rw [hd, hs] at hP
    simp only [Bool.false_or, Bool.and_eq_true, Bool.not_eq_true'] at hP
    unfold nestedKey
    rw [hP.2]
    simp
  · simp [hb] at h

theorem fakeS3_listing_mem (s : fakeS3) (cfg : Config) (keys : List GoString)
    (h : s.ListObjectsV2 (listRequest cfg) = .ok keys) (k : GoString) :
    k ∈ keys ↔ k ∈ s.objects.map Prod.fst ∧ stringsHasPrefix k cfg.Prefix = true ∧
      nestedKey cfg.Prefix k = false := by
  unfold fakeS3.ListObjectsV2 listRequest at h
  by_cases hb : cfg.Bucket = s.bucket
  · simp only [hb, ne_eq, not_true_eq_false, if_false, Except.ok.injEq] at h
    rw [← h, List.mem_filter]
    have hd : decide ("/".toList = ([] : List Char)) = false := by decide
    have hs : "/".toList = ['/'] := rfl
    rw [hd, hs]
    unfold nestedKey
    cases stringsHasPrefix k cfg.Prefix <;>
      cases stringsContains (stringsRemoveFirst k cfg.Prefix) ['/'] <;> simp
  · simp [hb] at h

theorem loadMigrations_ok_represents (c : S3er) (cfg : Config) (keys : List GoString)
    (hlist : c.ListObjectsV2 (listRequest cfg) = .ok keys)
    (hok : (s3Driver.loadMigrations
      { s3client := c, cfg := cfg, migrations := NewMigrations }).2 = none) :
    Represents (s3Driver.loadMigrations
      { s3client := c, cfg := cfg, migrations := NewMigrations }).1.migrations
      (parsedOf keys) := by
  rw [loadMigrations_eq _ keys hlist] at hok ⊢
  exact loadLoop_new_represents keys ((loadLoop_new_ok_iff keys).1 hok)

/-- C7, as amended. `loadMigrations` catalogues every key it is handed under
its leaf name, nested or not: whenever it returns nil, each listed key whose
leaf name parses to `m` has `m` in its slot of the catalog. The exclusion of
nested keys is done by the store, which is asked to list with the delimiter
`/`: `fakeS3` hands over no key that still contains a slash after the
prefix, so the catalog over a `fakeS3` store holds exactly the migrations of
the objects under the prefix that are not nested, and it is the catalog (and
the error) built over the store without its nested objects. -/
theorem loadMigrations_nested_excluded_by_store (s : fakeS3) (cfg : Config) :
    (∀ (c : S3er) (keys : List GoString),
      c.ListObjectsV2
        { Bucket := cfg.Bucket, Prefix := cfg.Prefix, Delimiter := "/".toList } = .ok keys →
      (s3Driver.loadMigrations
        { s3client := c, cfg := cfg, migrations := NewMigrations }).2 = none →
      ∀ k ∈ keys, ∀ m, DefaultParse (pathSplit k).2 = some m →
        (m.Direction = Direction.Up →
          (s3Driver.loadMigrations
            { s3client := c, cfg := cfg, migrations := NewMigrations }).1.migrations.Up
              m.Version = some m) ∧
        (m.Direction = Direction.Down →
          (s3Driver.loadMigrations
            { s3client := c, cfg := cfg, migrations := NewMigrations }).1.migrations.Down
              m.Version = some m)) ∧
    (∀ keys, s.client.ListObjectsV2
        { Bucket := cfg.Bucket, Prefix := cfg.Prefix, Delimiter := "/".toList } = .ok keys →
      ∀ k ∈ keys, nestedKey cfg.Prefix k = false) ∧
    ((s3Driver.loadMigrations
        { s3client := s.client, cfg := cfg, migrations := NewMigrations }).2 = none →
      ∀ v m,
        ((s3Driver.loadMigrations
            { s3client := s.client, cfg := cfg, migrations := NewMigrations }).1.migrations.Up v =
              some m ↔
          ∃ name ∈ s.objects.map Prod.fst, stringsHasPrefix name cfg.Prefix = true ∧
            nestedKey cfg.Prefix name = false ∧ DefaultParse (pathSplit name).2 = some m ∧
            m.Version = v ∧ m.Direction = Direction.Up) ∧
        ((s3Driver.loadMigrations
            { s3client := s.client, cfg := cfg, migrations := NewMigrations }).1.migrations.Down v =
              some m ↔
          ∃ name ∈ s.objects.map Prod.fst, stringsHasPrefix name cfg.Prefix = true ∧
            nestedKey cfg.Prefix name = false ∧ DefaultParse (pathSplit name).2 = some m ∧
            m.Version = v ∧ m.Direction = Direction.Down)) ∧
    (s3Driver.loadMigrations
        { s3client := s.client, cfg := cfg, migrations := NewMigrations }).1.migrations =
      (s3Driver.loadMigrations
        { s3client := (s.withoutNested cfg.Prefix).client, cfg := cfg,
          migrations := NewMigrations }).1.migrations ∧
    (s3Driver.loadMigrations
        { s3client := s.client, cfg := cfg, migrations := NewMigrations }).2 =
      (s3Driver.loadMigrations
        { s3client := (s.withoutNested cfg.Prefix).client, cfg := cfg,
          migrations := NewMigrations }).2 := by
  refine ⟨?_, fun keys h => fakeS3_listing_not_nested s cfg keys h, ?_, ?_⟩
  · intro c keys hlist hok k hk m hm
    have hr := loadMigrations_ok_represents c cfg keys hlist hok
    exact ⟨fun hdir => (hr.up_iff _ _).2 ⟨k, hk, hm, rfl, hdir⟩,
      fun hdir => (hr.down_iff _ _).2 ⟨k, hk, hm, rfl, hdir⟩⟩
  · intro hok v m
    cases hl : s.client.ListObjectsV2 (listRequest cfg) with
    | error err =>
      exfalso
      have hl' := hl
      unfold listRequest at hl'
      simp only [s3Driver.loadMigrations, hl'] at hok
      cases hok
    | ok keys =>
      have hr := loadMigrations_ok_represents s.client cfg keys hl hok
      have hmem := fakeS3_listing_mem s cfg keys hl
      constructor
      · rw [hr.up_iff]
        constructor
        · rintro ⟨k, hk, hp, hv, hdir⟩
          obtain ⟨h1, h2, h3⟩ := (hmem k).1 hk
          exact ⟨k, h1, h2, h3, hp, hv, hdir⟩
        · rintro ⟨k, h1, h2, h3, hp, hv, hdir⟩
          exact ⟨k, (hmem k).2 ⟨h1, h2, h3⟩, hp, hv, hdir⟩
      · rw [hr.down_iff]
        constructor
        · rintro ⟨k, hk, hp, hv, hdir⟩
          obtain ⟨h1, h2, h3⟩ := (hmem k).1 hk
          exact ⟨k, h1, h2, h3, hp, hv, hdir⟩
        · rintro ⟨k, h1, h2, h3, hp, hv, hdir⟩
          exact ⟨k, (hmem k).2 ⟨h1, h2, h3⟩, hp, hv, hdir⟩
  · have h := fakeS3_listing_withoutNested s cfg
    unfold listRequest at h
    simp only [s3Driver.loadMigrations, fakeS3.client, h]
    cases s.ListObjectsV2 { Bucket := cfg.Bucket, Prefix := cfg.Prefix, Delimiter := "/".toList } <;>
      exact ⟨rfl, rfl⟩

/-- C7, as amended, on a store with `p/1_a.up.sql` and the nested
`p/sub/9_x.up.sql`, whose leaf name parses to version 9. Handed the nested
key, `loadMigrations` records version 9; `fakeS3` lists only `p/1_a.up.sql`,
so the catalog over the store has the index `[1]` and no up half for 9. -/
theorem loadMigrations_nested_excluded_by_store_witness :
    nestedKey nestedConfig.Prefix "p/sub/9_x.up.sql".toList = true ∧
    (s3Driver.loadMigrations
      { s3client := listingClient ["p/sub/9_x.up.sql".toList], cfg := nestedConfig,
        migrations := NewMigrations }).1.migrations.Up 9 =
      some { Version := 9, Identifier := "x".toList, Direction := Direction.Up,
             Raw := "9_x.up.sql".toList } ∧
    nestedStore.client.ListObjectsV2 (listRequest nestedConfig) = .ok ["p/1_a.up.sql".toList] ∧
    (∀ k ∈ ["p/1_a.up.sql".toList], nestedKey nestedConfig.Prefix k = false) ∧
    (s3Driver.loadMigrations
      { s3client := nestedStore.client, cfg := nestedConfig,
        migrations := NewMigrations }).1.migrations.index = [1] ∧
    (s3Driver.loadMigrations
      { s3client := nestedStore.client, cfg := nestedConfig,
        migrations := NewMigrations }).1.migrations.Up 9 = none :=
  ⟨by decide,
    ((loadMigrations_nested_excluded_by_store nestedStore nestedConfig).1
      (listingClient ["p/sub/9_x.up.sql".toList]) ["p/sub/9_x.up.sql".toList] rfl (by decide)
      "p/sub/9_x.up.sql".toList (by decide)
      { Version := 9, Identifier := "x".toList, Direction := Direction.Up,
        Raw := "9_x.up.sql".toList } (by decide)).1 rfl,
    rfl,
    (loadMigrations_nested_excluded_by_store nestedStore nestedConfig).2.1
      ["p/1_a.up.sql".toList] rfl,
    by decide, by decide⟩

/-- C7 as stated fails: the loop of `loadMigrations` does not look at the
prefix. Handed the nested key `p/sub/9_x.up.sql` under the prefix `p/` it
records version 9 from the leaf name, while the same listing without the
nested key gives the empty catalog. -/
theorem loadMigrations_nested_counterexample :
    nestedKey "p/".toList "p/sub/9_x.up.sql".toList = true ∧
    (s3Driver.loadMigrations
      { s3client := listingClient ["p/sub/9_x.up.sql".toList],
        cfg := { Bucket := "b".toList, Prefix := "p/".toList },
        migrations := NewMigrations }).1.migrations.index = [9] ∧
    (s3Driver.loadMigrations
      { s3client := listingClient
          (["p/sub/9_x.up.sql".toList].filter (fun k => !nestedKey "p/".toList k)),
        cfg := { Bucket := "b".toList, Prefix := "p/".toList },
        migrations := NewMigrations }).1.migrations.index = [] :=
  ⟨by decide, by decide, by decide⟩

end AwsS3
